import Mathlib

/-!
Verification of the micioparser concurrent scraping engine.

Each section shallowly embeds one component of the JavaScript source:

* `TaskQueue` — the FIFO task queue of `src/worker.js` (`TaskQueue`), modelled
  as a state machine over sequences of `enqueue` / `dequeue` / `clear`
  operations; all three methods are synchronous in the event-loop model, so
  each operation is one atomic step that may deliver values to consumers.
* `WorkerLoop` — the per-slot task processor of `src/worker.js`
  (`Worker._taskProcessor` / `_executeTask`), modelled over the sequence of
  values its `dequeue` calls return.
* `NavLock` — the per-connector navigation lock of `src/navigation.js`
  (`NavigationLock.acquire` / `release`), modelled as an interleaving machine
  whose atomic steps are the synchronous segments between `await` points of
  the JavaScript code.
* `RateLimit` — the token-spacing rate limiter of `src/ratelimit.js`
  (`RateLimiter`), with the `processQueue` release schedule modelled over
  rational timestamps.
* `RateTester` — the progressive calibration loop of `src/ratelimit.js`
  (`RateLimitTester`), over lists of simulated per-window response outcomes.
* `Counter` — the fixed-width radix counter of `src/utils.js` (`Route.inc`),
  including its capture regular expression `(\d+(?!.*\d).*)$`.
* `Scrape` — the page-iteration strategies of `src/scrape.js`
  (`scrapeChapter`).
* `Chapters` — `getAllChapterLinks` of the mangaworld connector composed with
  the flattening in `ScrapingExecution.process`.
* `Pool` — the busy-set discipline of `src/driver.js` (`DriverPool.exec` /
  `getAvailableDriver`), as an interleaving machine.
-/

namespace TaskQueue

/-- State of the JS `TaskQueue`: `queue` is the buffered-task array, `waiters`
the FIFO list of suspended consumers (identified by numeric ids). -/
structure TQState (τ : Type) where
  queue : List τ
  waiters : List Nat
  deriving Repr, DecidableEq

/-- The three queue operations.  `dequeue c` is a call by consumer `c`. -/
inductive TQOp (τ : Type) where
  | enqueue (t : τ)
  | dequeue (c : Nat)
  | clear
  deriving Repr, DecidableEq

/-- The empty initial queue. -/
def tqInit (τ : Type) : TQState τ := ⟨[], []⟩

/-- One atomic operation of the JS `TaskQueue`.  Returns the new state and
the list of deliveries the operation performs: a delivery `(c, some t)`
resolves consumer `c` with task `t` (either the `dequeue` fast path or the
hand-off inside `enqueue`), and `(c, none)` is the null poison pill sent by
`clear`. -/
def tqStep {τ : Type} (s : TQState τ) : TQOp τ → TQState τ × List (Nat × Option τ)
  | .enqueue t =>
    match s.waiters with
    | [] => (⟨s.queue ++ [t], []⟩, [])
    | w :: ws => (⟨s.queue, ws⟩, [(w, some t)])
  | .dequeue c =>
    match s.queue with
    | [] => (⟨[], s.waiters ++ [c]⟩, [])
    | t :: ts => (⟨ts, s.waiters⟩, [(c, some t)])
  | .clear => (⟨[], []⟩, s.waiters.map fun w => (w, none))

/-- Run a sequence of operations, accumulating all deliveries in order. -/
def tqRun {τ : Type} (s : TQState τ) : List (TQOp τ) → TQState τ × List (Nat × Option τ)
  | [] => (s, [])
  | op :: ops =>
    let (s', ds) := tqStep s op
    let (s'', ds') := tqRun s' ops
    (s'', ds ++ ds')

/-- The tasks enqueued by a sequence of operations, in order. -/
def enqueuedTasks {τ : Type} (ops : List (TQOp τ)) : List τ :=
  ops.filterMap fun op => match op with
    | .enqueue t => some t
    | _ => none

/-- The tasks actually delivered to consumers (poison pills excluded), in
delivery order. -/
def deliveredTasks {τ : Type} (ds : List (Nat × Option τ)) : List τ :=
  ds.filterMap Prod.snd

/-- A sequence of operations that never calls `clear`. -/
def noClear {τ : Type} (ops : List (TQOp τ)) : Prop :=
  ∀ op ∈ ops, op ≠ TQOp.clear

instance {τ : Type} [DecidableEq τ] (ops : List (TQOp τ)) : Decidable (noClear ops) := by
  unfold noClear; infer_instance

/-- Cross invariant of the queue: buffered tasks and suspended consumers are
never simultaneously present. -/
def tqInv {τ : Type} (s : TQState τ) : Prop :=
  s.queue = [] ∨ s.waiters = []

theorem tqStep_inv {τ : Type} (s : TQState τ) (op : TQOp τ) (h : tqInv s) :
    tqInv (tqStep s op).1 := by
  cases op with
  | enqueue t =>
    cases hw : s.waiters with
    | nil => simp [tqStep, hw, tqInv]
    | cons w ws =>
      rcases h with hq | hw'
      · simp [tqStep, hw, tqInv, hq]
      · rw [hw] at hw'; cases hw'
  | dequeue c =>
    cases hq : s.queue with
    | nil => simp [tqStep, hq, tqInv]
    | cons t ts =>
      rcases h with hq' | hw
      · rw [hq] at hq'; cases hq'
      · simp [tqStep, hq, tqInv, hw]
  | clear => simp [tqStep, tqInv]

/-- FIFO ledger: over a clear-free run, the tasks delivered so far followed by
the tasks still buffered are exactly the tasks enqueued so far, in order. -/
theorem tqRun_ledger {τ : Type} (ops : List (TQOp τ)) (s : TQState τ)
    (hinv : tqInv s) (hnc : noClear ops) :
    deliveredTasks (tqRun s ops).2 ++ (tqRun s ops).1.queue
      = s.queue ++ enqueuedTasks ops := by
  induction ops generalizing s with
  | nil => simp [tqRun, deliveredTasks, enqueuedTasks]
  | cons op ops ih =>
    have hnc' : noClear ops := fun o ho => hnc o (List.mem_cons_of_mem _ ho)
    have hop : op ≠ TQOp.clear := hnc op (List.mem_cons_self _ _)
    have hinv' := tqStep_inv s op hinv
    cases op with
    | enqueue t =>
      cases hw : s.waiters with
      | nil =>
        have := ih (⟨s.queue ++ [t], []⟩ : TQState τ) (by rw [tqStep, hw] at hinv'; exact hinv')
          hnc'
        simp only [tqRun, tqStep, hw, deliveredTasks, enqueuedTasks, List.filterMap_append,
          List.filterMap_cons] at *
        simp only [List.append_assoc] at *
        simpa using this
      | cons w ws =>
        have hq : s.queue = [] := by
          rcases hinv with hq | hw'
          · exact hq
          · rw [hw] at hw'; cases hw'
        have := ih (⟨s.queue, ws⟩ : TQState τ) (Or.inl hq) hnc'
        simp only [tqRun, tqStep, hw, deliveredTasks, enqueuedTasks, List.filterMap_append,
          List.filterMap_cons] at *
        simp [hq] at *
        simpa using this
    | dequeue c =>
      cases hq : s.queue with
      | nil =>
        have := ih (⟨[], s.waiters ++ [c]⟩ : TQState τ) (Or.inl rfl) hnc'
        simp only [tqRun, tqStep, hq, deliveredTasks, enqueuedTasks, List.filterMap_append,
          List.filterMap_cons] at *
        simpa using this
      | cons t ts =>
        have := ih (⟨ts, s.waiters⟩ : TQState τ) (by rw [tqStep, hq] at hinv'; exact hinv') hnc'
        simp only [tqRun, tqStep, hq, deliveredTasks, enqueuedTasks, List.filterMap_append,
          List.filterMap_cons] at *
        simpa using this
    | clear => exact absurd rfl hop

end TaskQueue

namespace TaskQueue

/-- C2: over every clear-free sequence of enqueue/dequeue operations the queue
is strict FIFO (tasks delivered so far, followed by tasks still buffered,
equal the tasks enqueued, in order); a `dequeue` on an empty queue suspends
the caller by appending it to the waiter list; an `enqueue` with pending
consumers hands the task directly to the oldest waiter without buffering; and
`clear` resolves every suspended consumer with the null sentinel and empties
the queue. -/
theorem taskQueue_fifo_claim {τ : Type} (ops : List (TQOp τ)) (hnc : noClear ops) :
    (deliveredTasks (tqRun (tqInit τ) ops).2 ++ (tqRun (tqInit τ) ops).1.queue
        = enqueuedTasks ops)
    ∧ (∀ (s : TQState τ) (c : Nat), s.queue = [] →
        tqStep s (.dequeue c) = (⟨[], s.waiters ++ [c]⟩, []))
    ∧ (∀ (s : TQState τ) (t : τ) (w : Nat) (ws : List Nat), s.waiters = w :: ws →
        tqStep s (.enqueue t) = (⟨s.queue, ws⟩, [(w, some t)]))
    ∧ (∀ s : TQState τ,
        tqStep s .clear = (⟨[], []⟩, s.waiters.map fun w => (w, none))) := by
  refine ⟨?_, ?_, ?_, ?_⟩
  · simpa [tqInit] using tqRun_ledger ops (tqInit τ) (Or.inl rfl) hnc
  · intro s c hq; simp [tqStep, hq]
  · intro s t w ws hw; simp [tqStep, hw]
  · intro s; simp [tqStep]

/-- Concrete witness for `taskQueue_fifo_claim`: a consumer suspends on the
empty queue, is handed the first enqueued task, and the remaining tasks are
delivered in enqueue order. -/
theorem taskQueue_fifo_claim_witness :
    noClear [(TQOp.dequeue 7 : TQOp Nat), .enqueue 10, .enqueue 20, .dequeue 8]
    ∧ deliveredTasks (tqRun (tqInit Nat)
          [TQOp.dequeue 7, .enqueue 10, .enqueue 20, .dequeue 8]).2
        ++ (tqRun (tqInit Nat)
          [TQOp.dequeue 7, .enqueue 10, .enqueue 20, .dequeue 8]).1.queue
      = enqueuedTasks [(TQOp.dequeue 7 : TQOp Nat), .enqueue 10, .enqueue 20, .dequeue 8] :=
  ⟨by decide,
   (taskQueue_fifo_claim [TQOp.dequeue 7, .enqueue 10, .enqueue 20, .dequeue 8]
     (by decide)).1⟩

end TaskQueue

namespace WorkerLoop

/-- A worker-pool task as `Worker._taskProcessor` sees it: a numeric identity
for its completion handle and the outcome of awaiting `task.execute()` —
either a result or a thrown error. -/
structure WTask (ε ρ : Type) where
  id : Nat
  execute : Except ε ρ

/-- A settlement of one task's completion handle: `task.resolve(result)` on
success (inside `_executeTask`), `task.reject(error)` in the processor's
catch block on failure. -/
inductive Settlement (ε ρ : Type) where
  | resolved (id : Nat) (r : ρ)
  | rejected (id : Nat) (e : ε)

/-- How the loop settles one task: its own outcome goes to its own handle. -/
def settleOne {ε ρ : Type} (t : WTask ε ρ) : Settlement ε ρ :=
  match t.execute with
  | .ok r => .resolved t.id r
  | .error e => .rejected t.id e

/-- The id a settlement is delivered to. -/
def settledId {ε ρ : Type} : Settlement ε ρ → Nat
  | .resolved i _ => i
  | .rejected i _ => i

/-- `Worker._taskProcessor` over the sequence of values its `dequeue` calls
return: `none` is the poison pill (the loop breaks), `some t` is a task.  A
failing `execute` is caught, rejected onto that task, and the loop
continues. -/
def taskProcessor {ε ρ : Type} : List (Option (WTask ε ρ)) → List (Settlement ε ρ)
  | [] => []
  | none :: _ => []
  | some t :: rest => settleOne t :: taskProcessor rest

/-- The tasks processed before the first poison pill. -/
def liveTasks {ε ρ : Type} : List (Option (WTask ε ρ)) → List (WTask ε ρ)
  | [] => []
  | none :: _ => []
  | some t :: rest => t :: liveTasks rest

/-- C5: every task dequeued before the poison pill is settled with exactly the
outcome of its own `execute` — a thrown error is caught and delivered as a
rejection of that task's handle only — and the loop keeps processing the
remaining tasks after a failure: the settlement list of `some t :: rest` is
`settleOne t` consed on the settlements of `rest`, for a failing `t` as much
as for a succeeding one.  Settlements carry the id of their own task, so no
other task's handle is touched, and the processor of one slot's feed is a
function of that feed alone. -/
theorem worker_error_isolation_claim {ε ρ : Type}
    (feed : List (Option (WTask ε ρ))) :
    (taskProcessor feed = (liveTasks feed).map settleOne)
    ∧ ((taskProcessor feed).map settledId = (liveTasks feed).map WTask.id)
    ∧ (∀ (t : WTask ε ρ) (rest : List (Option (WTask ε ρ))),
        taskProcessor (some t :: rest) = settleOne t :: taskProcessor rest)
    ∧ (∀ (i : Nat) (e : ε) (rest : List (Option (WTask ε ρ))),
        taskProcessor (some ⟨i, .error e⟩ :: rest)
          = Settlement.rejected i e :: taskProcessor rest) := by
  refine ⟨?_, ?_, fun t rest => rfl, fun i e rest => rfl⟩
  · induction feed with
    | nil => rfl
    | cons o rest ih =>
      cases o with
      | none => rfl
      | some t => simp [taskProcessor, liveTasks, ih]
  · induction feed with
    | nil => rfl
    | cons o rest ih =>
      cases o with
      | none => rfl
      | some t =>
        simp only [taskProcessor, liveTasks, List.map_cons, ih]
        cases h : t.execute <;> simp [settleOne, settledId, h]

end WorkerLoop

namespace NavLock

/-- Phase of one logical caller with respect to the Navigation Lock of its
connector, following the synchronous segments of `NavigationLock.acquire` /
`release` between `await` points. -/
inductive Phase where
  /-- scheduled to run the `while (lockState.locked)` check (a fresh call to
  `acquire`, or a waiter whose `resolve` was just called by `release`). -/
  | ready
  /-- suspended: its `resolve` sits in `lockState.queue`. -/
  | waiting
  /-- it found `locked` false, set `locked = true`, and is now awaiting
  `rateLimiter.throttle()`. -/
  | throttling
  /-- `acquire` returned: the caller owns the navigation lock. -/
  | holding
  /-- it called `release`. -/
  | done
  deriving Repr, DecidableEq

/-- Global state: per-connector `locked` flag and waiter queue (the JS
`this.locks` map), plus the phase of every logical caller. -/
structure Sys (σ : Type) where
  locked : σ → Bool
  queue : σ → List Nat
  phase : Nat → Phase

/-- All locks free, no waiters, every caller about to enter `acquire`. -/
def navInit (σ : Type) : Sys σ := ⟨fun _ => false, fun _ => [], fun _ => .ready⟩

/-- A phase that owns the lock (between setting `locked = true` and calling
`release`). -/
def isHold (p : Phase) : Prop := p = .throttling ∨ p = .holding

instance (p : Phase) : Decidable (isHold p) := by unfold isHold; infer_instance

variable {σ : Type} [DecidableEq σ]

/-- One atomic step of caller `t` (whose connector is `conn t`).  Each
constructor is one synchronous segment of the JavaScript between `await`
points; the scheduler interleaves steps of different callers arbitrarily. -/
inductive Step (conn : Nat → σ) (t : Nat) : Sys σ → Sys σ → Prop
  /-- `acquire`, lock held: push own `resolve` onto `lockState.queue` and
  suspend. -/
  | enqueueWait (s : Sys σ) (hp : s.phase t = .ready) (hl : s.locked (conn t) = true) :
      Step conn t s ⟨s.locked,
        Function.update s.queue (conn t) (s.queue (conn t) ++ [t]),
        Function.update s.phase t .waiting⟩
  /-- `acquire`, lock free: exit the `while` loop and set `locked = true`
  (one synchronous segment — the check and the assignment cannot be
  interleaved), then start `throttle()`. -/
  | acquireOk (s : Sys σ) (hp : s.phase t = .ready) (hl : s.locked (conn t) = false) :
      Step conn t s ⟨Function.update s.locked (conn t) true, s.queue,
        Function.update s.phase t .throttling⟩
  /-- `throttle()` resolves; `acquire` returns. -/
  | throttleDone (s : Sys σ) (hp : s.phase t = .throttling) :
      Step conn t s ⟨s.locked, s.queue, Function.update s.phase t .holding⟩
  /-- `release` with no waiters: set `locked = false`. -/
  | releaseNone (s : Sys σ) (hp : s.phase t = .holding) (hq : s.queue (conn t) = []) :
      Step conn t s ⟨Function.update s.locked (conn t) false, s.queue,
        Function.update s.phase t .done⟩
  /-- `release` with waiters: set `locked = false`, shift the oldest waiter
  and call its `resolve` — the waiter becomes runnable (`ready`) but does not
  receive the lock directly. -/
  | releaseWake (s : Sys σ) (w : Nat) (rest : List Nat) (hp : s.phase t = .holding)
      (hq : s.queue (conn t) = w :: rest) :
      Step conn t s ⟨Function.update s.locked (conn t) false,
        Function.update s.queue (conn t) rest,
        Function.update (Function.update s.phase t .done) w .ready⟩

/-- Reachability from the initial state under arbitrary interleaving. -/
inductive Reach (conn : Nat → σ) : Sys σ → Prop
  | init : Reach conn (navInit σ)
  | step {s s' : Sys σ} (t : Nat) : Reach conn s → Step conn t s s' → Reach conn s'

/-- Caller `t` holds the Navigation Lock of connector `c`. -/
def holdsNav (conn : Nat → σ) (s : Sys σ) (t : Nat) (c : σ) : Prop :=
  conn t = c ∧ isHold (s.phase t)

/-- Inductive invariant of the lock machine. -/
def NavInv (conn : Nat → σ) (s : Sys σ) : Prop :=
  (∀ t₁ t₂, conn t₁ = conn t₂ → isHold (s.phase t₁) → isHold (s.phase t₂) → t₁ = t₂)
  ∧ (∀ t, s.locked (conn t) = false → ¬ isHold (s.phase t))
  ∧ (∀ c t, t ∈ s.queue c → conn t = c ∧ s.phase t = .waiting)
  ∧ (∀ c, (s.queue c).Nodup)

omit [DecidableEq σ] in
theorem navInv_init (conn : Nat → σ) : NavInv conn (navInit σ) := by
  refine ⟨fun t₁ t₂ _ h₁ _ => ?_, fun t h hh => ?_, fun c t h => ?_, fun c => ?_⟩
  · rcases h₁ with h₁ | h₁ <;> cases h₁
  · rcases hh with hh | hh <;> cases hh
  · cases h
  · exact List.nodup_nil

theorem navInv_step {conn : Nat → σ} {t : Nat} {s s' : Sys σ}
    (hstep : Step conn t s s') (hinv : NavInv conn s) : NavInv conn s' := by
  obtain ⟨inv1, inv2, inv3, inv4⟩ := hinv
  cases hstep with
  | enqueueWait hp hl =>
    have htq : ∀ c, t ∉ s.queue c := by
      intro c hmem
      have := (inv3 c t hmem).2
      rw [hp] at this; cases this
    refine ⟨fun t₁ t₂ hc h₁ h₂ => ?_, fun u hu => ?_, fun c u hu => ?_, fun c => ?_⟩
    · simp only [Function.update_apply] at h₁ h₂
      split_ifs at h₁ h₂ with e₁ e₂ e₂
      · exact e₁.trans e₂.symm
      · rcases h₁ with h | h <;> cases h
      · rcases h₂ with h | h <;> cases h
      · exact inv1 t₁ t₂ hc h₁ h₂
    · simp only [Function.update_apply]
      split_ifs with e
      · intro h; rcases h with h | h <;> cases h
      · exact inv2 u hu
    · simp only [Function.update_apply] at hu ⊢
      split_ifs at hu with e
      · rcases List.mem_append.mp hu with h | h
        · have h3 := inv3 (conn t) u h
          have hut : u ≠ t := fun he => htq (conn t) (he ▸ h)
          rw [e]
          simp [hut, h3.1, h3.2]
        · have hut : u = t := by simpa using h
          subst hut
          simp [e]
      · have h3 := inv3 c u hu
        have hut : u ≠ t := by
          intro he
          rw [he, hp] at h3
          cases h3.2
        simp [hut, h3.1, h3.2]
    · simp only [Function.update_apply]
      split_ifs with e
      · refine List.Nodup.append (inv4 (conn t)) (List.nodup_singleton t) ?_
        intro x hx hx'
        have hxt : x = t := by simpa using hx'
        exact htq (conn t) (hxt ▸ hx)
      · exact inv4 c
  | acquireOk hp hl =>
    refine ⟨fun t₁ t₂ hc h₁ h₂ => ?_, fun u hu => ?_, fun c u hu => ?_, fun c => inv4 c⟩
    · simp only [Function.update_apply] at h₁ h₂
      split_ifs at h₁ h₂ with e₁ e₂ e₂
      · exact e₁.trans e₂.symm
      · subst e₁
        exact absurd h₂ (inv2 t₂ (hc ▸ hl))
      · subst e₂
        exact absurd h₁ (inv2 t₁ (hc ▸ hl))
      · exact inv1 t₁ t₂ hc h₁ h₂
    · simp only [Function.update_apply] at hu ⊢
      split_ifs at hu with e
      have hut : u ≠ t := fun he => e (he ▸ rfl)
      simp only [hut, if_false]
      exact inv2 u hu
    · have h3 := inv3 c u hu
      have hut : u ≠ t := by
        intro he
        rw [he, hp] at h3
        cases h3.2
      simp only [Function.update_apply, hut, if_false]
      exact h3
  | throttleDone hp =>
    refine ⟨fun t₁ t₂ hc h₁ h₂ => ?_, fun u hu => ?_, fun c u hu => ?_, fun c => inv4 c⟩
    · simp only [Function.update_apply] at h₁ h₂
      split_ifs at h₁ h₂ with e₁ e₂ e₂
      · exact e₁.trans e₂.symm
      · have h₁x : isHold (s.phase t₁) := by rw [e₁, hp]; exact Or.inl rfl
        exact inv1 t₁ t₂ hc h₁x h₂
      · have h₂x : isHold (s.phase t₂) := by rw [e₂, hp]; exact Or.inl rfl
        exact inv1 t₁ t₂ hc h₁ h₂x
      · exact inv1 t₁ t₂ hc h₁ h₂
    · simp only [Function.update_apply]
      split_ifs with e
      · subst e; intro _; exact inv2 u hu (Or.inl hp)
      · exact inv2 u hu
    · have h3 := inv3 c u hu
      have hut : u ≠ t := by
        intro he
        rw [he, hp] at h3
        cases h3.2
      simp only [Function.update_apply, hut, if_false]
      exact h3
  | releaseNone hp hq =>
    refine ⟨fun t₁ t₂ hc h₁ h₂ => ?_, fun u hu => ?_, fun c u hu => ?_, fun c => inv4 c⟩
    · simp only [Function.update_apply] at h₁ h₂
      split_ifs at h₁ h₂ with e₁ e₂ e₂
      · exact e₁.trans e₂.symm
      · rcases h₁ with h | h <;> cases h
      · rcases h₂ with h | h <;> cases h
      · exact inv1 t₁ t₂ hc h₁ h₂
    · simp only [Function.update_apply] at hu ⊢
      split_ifs with e
      · intro h; rcases h with h | h <;> cases h
      · intro hh
        by_cases e' : conn u = conn t
        · exact e (inv1 u t e' hh (Or.inr hp) ▸ rfl)
        · rw [if_neg e'] at hu
          exact inv2 u hu hh
    · have h3 := inv3 c u hu
      have hut : u ≠ t := by
        intro he
        rw [he, hp] at h3
        cases h3.2
      simp only [Function.update_apply, hut, if_false]
      exact h3
  | releaseWake w rest hp hq =>
    have hwq : w ∈ s.queue (conn t) := by rw [hq]; exact List.mem_cons_self _ _
    have hw := inv3 (conn t) w hwq
    have hwt : w ≠ t := by
      intro h
      rw [h, hp] at hw
      cases hw.2
    have hnd := inv4 (conn t)
    rw [hq] at hnd
    refine ⟨fun t₁ t₂ hc h₁ h₂ => ?_, fun u hu => ?_, fun c u hu => ?_, fun c => ?_⟩
    · simp only [Function.update_apply] at h₁ h₂
      split_ifs at h₁ h₂ <;>
        first
          | (rcases h₁ with h | h; cases h; cases h)
          | (rcases h₂ with h | h; cases h; cases h)
          | exact inv1 t₁ t₂ hc h₁ h₂
    · simp only [Function.update_apply] at hu ⊢
      split_ifs with e₁ e₂
      · intro h; rcases h with h | h <;> cases h
      · intro h; rcases h with h | h <;> cases h
      · intro hh
        by_cases e' : conn u = conn t
        · exact e₂ (inv1 u t e' hh (Or.inr hp) ▸ rfl)
        · rw [if_neg e'] at hu
          exact inv2 u hu hh
    · simp only [Function.update_apply] at hu ⊢
      split_ifs at hu with e
      · have hu' : u ∈ s.queue (conn t) := by rw [hq]; exact List.mem_cons_of_mem _ hu
        have h3 := inv3 (conn t) u hu'
        have huw : u ≠ w := fun he => (List.nodup_cons.mp hnd).1 (he ▸ hu)
        have hut : u ≠ t := by
          intro he
          rw [he, hp] at h3
          cases h3.2
        rw [e]
        simp [huw, hut, h3.1, h3.2]
      · have h3 := inv3 c u hu
        have huw : u ≠ w := by
          intro he
          rw [he] at h3
          exact e (h3.1 ▸ hw.1 ▸ rfl)
        have hut : u ≠ t := by
          intro he
          rw [he, hp] at h3
          cases h3.2
        simp [huw, hut, h3.1, h3.2]
    · simp only [Function.update_apply]
      split_ifs with e
      · exact (List.nodup_cons.mp hnd).2
      · exact inv4 c


theorem navInv_reach {conn : Nat → σ} {s : Sys σ} (h : Reach conn s) : NavInv conn s := by
  induction h with
  | init => exact navInv_init conn
  | step t _ hstep ih => exact navInv_step hstep ih

end NavLock

namespace NavLock

/-- C1: on every reachable state of the Navigation Lock machine, for every
connector at most one caller holds that connector's lock — `acquire` never
returns to a second caller (nor even reaches its post-lock `throttle()`)
while a first holder has not released — and every step of a caller leaves the
lock state (flag and waiter queue) of every other connector, and the phase of
every caller of another connector, unchanged: locks of distinct sources are
fully independent. -/
theorem navlock_mutual_exclusion_claim {σ : Type} [DecidableEq σ] (conn : Nat → σ)
    (s : Sys σ) (h : Reach conn s) :
    (∀ (c : σ) (t₁ t₂ : Nat),
        holdsNav conn s t₁ c → holdsNav conn s t₂ c → t₁ = t₂)
    ∧ (∀ (t : Nat) (s' : Sys σ), Step conn t s s' →
        (∀ c, c ≠ conn t → s'.locked c = s.locked c ∧ s'.queue c = s.queue c)
        ∧ (∀ u, conn u ≠ conn t → s'.phase u = s.phase u)) := by
  obtain ⟨inv1, inv2, inv3, inv4⟩ := navInv_reach h
  constructor
  · rintro c t₁ t₂ ⟨hc₁, hh₁⟩ ⟨hc₂, hh₂⟩
    exact inv1 t₁ t₂ (hc₁.trans hc₂.symm) hh₁ hh₂
  · intro t s' hstep
    cases hstep with
    | enqueueWait hp hl =>
      refine ⟨fun c hc => ⟨rfl, Function.update_noteq hc _ _⟩, fun u hu => ?_⟩
      exact Function.update_noteq (fun he => hu (congrArg conn he)) _ _
    | acquireOk hp hl =>
      refine ⟨fun c hc => ⟨Function.update_noteq hc _ _, rfl⟩, fun u hu => ?_⟩
      exact Function.update_noteq (fun he => hu (congrArg conn he)) _ _
    | throttleDone hp =>
      refine ⟨fun c hc => ⟨rfl, rfl⟩, fun u hu => ?_⟩
      exact Function.update_noteq (fun he => hu (congrArg conn he)) _ _
    | releaseNone hp hq =>
      refine ⟨fun c hc => ⟨Function.update_noteq hc _ _, rfl⟩, fun u hu => ?_⟩
      exact Function.update_noteq (fun he => hu (congrArg conn he)) _ _
    | releaseWake w rest hp hq =>
      have hw := inv3 (conn t) w (by rw [hq]; exact List.mem_cons_self _ _)
      refine ⟨fun c hc => ⟨Function.update_noteq hc _ _, Function.update_noteq hc _ _⟩,
        fun u hu => ?_⟩
      have huw : u ≠ w := fun he => hu (he ▸ hw.1)
      have hut : u ≠ t := fun he => hu (congrArg conn he)
      show Function.update (Function.update s.phase t Phase.done) w Phase.ready u = s.phase u
      rw [Function.update_noteq huw, Function.update_noteq hut]

/-- All callers target the single connector `0`. -/
def wConn : Nat → Nat := fun _ => 0

/-- Caller 0 enters `acquire` on the free lock and sets `locked`. -/
def wS1 : Sys Nat :=
  ⟨Function.update (navInit Nat).locked 0 true, (navInit Nat).queue,
    Function.update (navInit Nat).phase 0 .throttling⟩

/-- Caller 0's `throttle()` resolves; it now holds the lock. -/
def wS2 : Sys Nat := ⟨wS1.locked, wS1.queue, Function.update wS1.phase 0 .holding⟩

theorem wStep1 : Step wConn 0 (navInit Nat) wS1 := Step.acquireOk _ rfl rfl

theorem wStep2 : Step wConn 0 wS1 wS2 := Step.throttleDone _ rfl

theorem wReach2 : Reach wConn wS2 :=
  Reach.step 0 (Reach.step 0 Reach.init wStep1) wStep2

/-- Witness for `navlock_mutual_exclusion_claim`: after the concrete trace
`acquire(0); throttle-done` caller 0 holds connector 0's lock, and the
mutual-exclusion part applied at that reachable state yields the (trivial)
identification of the holder with itself. -/
theorem navlock_mutual_exclusion_claim_witness :
    holdsNav wConn wS2 0 0 ∧ (0 : Nat) = 0 :=
  ⟨⟨rfl, Or.inr rfl⟩,
    (navlock_mutual_exclusion_claim wConn wS2 wReach2).1 0 0 0
      ⟨rfl, Or.inr rfl⟩ ⟨rfl, Or.inr rfl⟩⟩

end NavLock

namespace NavLock

/-- Caller 1 calls `acquire`, finds the lock held, and enqueues itself. -/
def wS3 : Sys Nat :=
  ⟨wS2.locked, Function.update wS2.queue 0 (wS2.queue 0 ++ [1]),
    Function.update wS2.phase 1 .waiting⟩

/-- Caller 0 releases: `locked = false`, waiter 1 is shifted and resumed. -/
def wS4 : Sys Nat :=
  ⟨Function.update wS3.locked 0 false, Function.update wS3.queue 0 [],
    Function.update (Function.update wS3.phase 0 .done) 1 .ready⟩

/-- Before the resumed waiter 1 runs its re-check, a fresh caller 2 enters
`acquire`, sees `locked === false`, and takes the lock. -/
def wS5 : Sys Nat :=
  ⟨Function.update wS4.locked 0 true, wS4.queue,
    Function.update wS4.phase 2 .throttling⟩

/-- The resumed waiter 1 now runs the `while` re-check, finds the lock held
by caller 2, and enqueues itself again. -/
def wS6 : Sys Nat :=
  ⟨wS5.locked, Function.update wS5.queue 0 (wS5.queue 0 ++ [1]),
    Function.update wS5.phase 1 .waiting⟩

/-- Caller 2's `throttle()` resolves: it holds the lock the waiter was
resumed for. -/
def wS7 : Sys Nat := ⟨wS6.locked, wS6.queue, Function.update wS6.phase 2 .holding⟩

theorem wStep3 : Step wConn 1 wS2 wS3 := Step.enqueueWait _ rfl rfl

theorem wStep4 : Step wConn 0 wS3 wS4 := Step.releaseWake _ 1 [] rfl rfl

theorem wStep5 : Step wConn 2 wS4 wS5 := Step.acquireOk _ rfl rfl

theorem wStep6 : Step wConn 1 wS5 wS6 := Step.enqueueWait _ rfl rfl

theorem wStep7 : Step wConn 2 wS6 wS7 := Step.throttleDone _ rfl

theorem wReach7 : Reach wConn wS7 :=
  Reach.step 2 (Reach.step 1 (Reach.step 2 (Reach.step 0
    (Reach.step 1 wReach2 wStep3) wStep4) wStep5) wStep6) wStep7

/-- C3 counterexample: the claim that a waiter woken by `release` is handed
the lock directly and cannot lose it to a newly arriving acquirer is false.
In the concrete reachable trace `wS2 → … → wS7`, caller 0 releases while
caller 1 waits; the release resumes waiter 1 (`wS4`: phase `ready`, queue
emptied, lock free), but the code re-checks `locked` in a `while` loop
instead of transferring ownership, so the late-arriving caller 2 acquires
first (`wS5`), and the resumed waiter finds the lock taken and re-enqueues:
in `wS7` caller 1 is `waiting` again while caller 2 holds the lock. -/
theorem navlock_direct_handoff_counterexample :
    Reach wConn wS7
    ∧ Step wConn 0 wS3 wS4
    ∧ wS3.queue 0 = [1]
    ∧ wS4.phase 1 = Phase.ready
    ∧ wS4.queue 0 = []
    ∧ wS4.locked 0 = false
    ∧ Step wConn 2 wS4 wS5
    ∧ wS7.phase 1 = Phase.waiting
    ∧ wS7.queue 0 = [1]
    ∧ holdsNav wConn wS7 2 0
    ∧ ¬ holdsNav wConn wS7 1 0 := by
  refine ⟨wReach7, wStep4, rfl, rfl, rfl, rfl, wStep5, rfl, rfl,
    ⟨rfl, Or.inr rfl⟩, ?_⟩
  rintro ⟨-, h | h⟩ <;> cases h

/-- C3 (amended): when `release` runs with waiters queued it shifts the
oldest waiter, resumes it, and clears `locked` — the waiter is made runnable
in FIFO arrival order (acquires append at the tail, releases pop at the
head) but is not handed the lock directly: it re-runs the `while` check and
may re-enqueue if another caller acquired first (see the counterexample).
Moreover a caller only transitions to the acquired state out of the
throttling phase: once it wins the lock, `acquire` calls the source's rate
limiter `throttle()` before returning. -/
theorem navlock_release_wake_claim {σ : Type} [DecidableEq σ] (conn : Nat → σ) :
    (∀ (s s' : Sys σ) (t w : Nat) (rest : List Nat), Step conn t s s' →
        s.phase t = .holding → s.queue (conn t) = w :: rest →
        s'.queue (conn t) = rest ∧ s'.phase w = .ready ∧ s'.locked (conn t) = false)
    ∧ (∀ (s s' : Sys σ) (t : Nat), Step conn t s s' →
        s.phase t = .ready → s.locked (conn t) = true →
        s'.queue (conn t) = s.queue (conn t) ++ [t])
    ∧ (∀ (s s' : Sys σ) (u v : Nat), Step conn u s s' →
        s.phase v ≠ .holding → s'.phase v = .holding →
        u = v ∧ s.phase v = .throttling) := by
  refine ⟨?_, ?_, ?_⟩
  · intro s s' t w rest hstep hh hq
    cases hstep with
    | enqueueWait hp hl => rw [hp] at hh; cases hh
    | acquireOk hp hl => rw [hp] at hh; cases hh
    | throttleDone hp => rw [hp] at hh; cases hh
    | releaseNone hp hq' => rw [hq'] at hq; cases hq
    | releaseWake w' rest' hp hq' =>
      rw [hq'] at hq
      injection hq with hw hrest
      subst hw; subst hrest
      refine ⟨?_, ?_, ?_⟩
      · dsimp only; rw [Function.update_same]
      · dsimp only; rw [Function.update_same]
      · dsimp only; rw [Function.update_same]
  · intro s s' t hstep hr hl
    cases hstep with
    | enqueueWait hp hl' => exact Function.update_same _ _ _
    | acquireOk hp hl' => rw [hl'] at hl; cases hl
    | throttleDone hp => rw [hp] at hr; cases hr
    | releaseNone hp hq' => rw [hp] at hr; cases hr
    | releaseWake w' rest' hp hq' => rw [hp] at hr; cases hr
  · intro s s' u v hstep hnh hh
    cases hstep with
    | enqueueWait hp hl =>
      dsimp only at hh
      by_cases e : v = u
      · subst e; rw [Function.update_same] at hh; cases hh
      · rw [Function.update_noteq e] at hh; exact absurd hh hnh
    | acquireOk hp hl =>
      dsimp only at hh
      by_cases e : v = u
      · subst e; rw [Function.update_same] at hh; cases hh
      · rw [Function.update_noteq e] at hh; exact absurd hh hnh
    | throttleDone hp =>
      dsimp only at hh
      by_cases e : v = u
      · subst e; exact ⟨rfl, hp⟩
      · rw [Function.update_noteq e] at hh; exact absurd hh hnh
    | releaseNone hp hq' =>
      dsimp only at hh
      by_cases e : v = u
      · subst e; rw [Function.update_same] at hh; cases hh
      · rw [Function.update_noteq e] at hh; exact absurd hh hnh
    | releaseWake w rest hp hq' =>
      dsimp only at hh
      by_cases ew : v = w
      · subst ew; rw [Function.update_same] at hh; cases hh
      · rw [Function.update_noteq ew] at hh
        by_cases e : v = u
        · subst e; rw [Function.update_same] at hh; cases hh
        · rw [Function.update_noteq e] at hh; exact absurd hh hnh

/-- Witness for `navlock_release_wake_claim`: applied to the concrete
release step of the counterexample trace, the oldest (only) waiter 1 is
shifted and resumed and the lock is cleared. -/
theorem navlock_release_wake_claim_witness :
    wS4.queue 0 = [] ∧ wS4.phase 1 = Phase.ready ∧ wS4.locked 0 = false :=
  (navlock_release_wake_claim wConn).1 wS3 wS4 0 1 [] wStep4 rfl rfl

end NavLock

namespace RateLimit

/-- The JS `state.reqsPerSecond`: `null`, `Infinity`, or a finite number. -/
inductive Rate where
  | nullRate
  | infRate
  | fin (q : ℚ)
  deriving Repr, DecidableEq

/-- `updateInterval` sets `isConfigured` true exactly for a finite rate. -/
def isConfigured : Rate → Bool
  | .fin _ => true
  | _ => false

/-- `state.intervalMs` as maintained by `updateInterval`. -/
def intervalMs : Rate → ℚ
  | .fin q => 1000 / q
  | _ => 0

/-- The limiter's mode. -/
inductive RLMode where
  | auto
  | manual
  deriving Repr, DecidableEq

/-- The `RateLimiter` closure state relevant to `throttle()`; `stats` is
abstracted to the recommended rate it carries. -/
structure RLState where
  mode : RLMode
  reqsPerSecond : Rate
  stats : Option ℚ
  queue : List Nat
  deriving Repr, DecidableEq

/-- The early-return guard of `throttle()`:
`!state.isConfigured || state.mode === 'auto' && !state.stats`. -/
def throttleNoop (s : RLState) : Bool :=
  !(isConfigured s.reqsPerSecond)
    || (match s.mode, s.stats with
        | .auto, none => true
        | _, _ => false)

/-- `throttle()` as one state transition: the returned Bool is true when the
call returned immediately (no queueing), false when the caller was enqueued
to be released by `processQueue`. -/
def throttle (s : RLState) (caller : Nat) : RLState × Bool :=
  if throttleNoop s then (s, true)
  else ({ s with queue := s.queue ++ [caller] }, false)

/-- One `processQueue` pass: given the stored `lastRequestTime` and the time
`now` at which the pass reads the clock, the instant at which it releases the
next queued caller — it sleeps `max(0, intervalMs - (now - last))` first and
then sets `lastRequestTime` to the release instant. -/
def nextRelease (interval last now : ℚ) : ℚ :=
  now + max 0 (interval - (now - last))

/-- Release instants for a FIFO queue of waiting callers: `nows` are the
clock readings of the successive `processQueue` passes (one pass per caller —
the `processing` flag serializes them). -/
def releases (interval : ℚ) : ℚ → List ℚ → List ℚ
  | _, [] => []
  | last, now :: nows =>
    nextRelease interval last now ::
      releases interval (nextRelease interval last now) nows

/-- The clock is monotone across passes: each pass reads a time no earlier
than the previous release (a pass only starts after the previous resolve). -/
def admissible (interval : ℚ) : ℚ → List ℚ → Prop
  | _, [] => True
  | last, now :: nows =>
    last ≤ now ∧ admissible interval (nextRelease interval last now) nows

instance (interval last : ℚ) (nows : List ℚ) :
    Decidable (admissible interval last nows) := by
  induction nows generalizing last with
  | nil => exact isTrue trivial
  | cons now nows ih =>
    have := ih (nextRelease interval last now)
    unfold admissible
    infer_instance

theorem nextRelease_spacing (interval last now : ℚ) :
    last + interval ≤ nextRelease interval last now := by
  have hmax := le_max_right (0 : ℚ) (interval - (now - last))
  unfold nextRelease
  linarith [hmax]

theorem releases_spacing (interval : ℚ) (last : ℚ) (nows : List ℚ)
    (h : admissible interval last nows) :
    List.Chain' (fun a b => a + interval ≤ b)
      (last :: releases interval last nows) := by
  induction nows generalizing last with
  | nil => simp [releases]
  | cons now nows ih =>
    obtain ⟨h₁, h₂⟩ := h
    rw [releases, List.chain'_cons]
    exact ⟨nextRelease_spacing interval last now, ih _ h₂⟩

/-- C4: `throttle()` returns immediately without queueing when the rate is
unset (`null`), when it is `Infinity`, and in auto mode with no calibration
stats; with a finite configured rate `R` the caller is enqueued, the interval
is `1000 / R` milliseconds, the serialized `processQueue` passes release one
caller each, and (the clock being monotone across passes) consecutive release
instants — starting from the stored `lastRequestTime` — are at least
`intervalMs` apart, each release happening exactly
`max(0, intervalMs - timeSinceLast)` after its pass reads the clock. -/
theorem ratelimiter_throttle_claim :
    (∀ (s : RLState) (c : Nat), s.reqsPerSecond = .nullRate → throttle s c = (s, true))
    ∧ (∀ (s : RLState) (c : Nat), s.reqsPerSecond = .infRate → throttle s c = (s, true))
    ∧ (∀ (s : RLState) (c : Nat), s.mode = .auto → s.stats = none →
        throttle s c = (s, true))
    ∧ (∀ (s : RLState) (c : Nat) (q : ℚ), s.reqsPerSecond = .fin q →
        (s.mode = .manual ∨ s.stats ≠ none) →
        throttle s c = ({ s with queue := s.queue ++ [c] }, false))
    ∧ (∀ q : ℚ, intervalMs (.fin q) = 1000 / q)
    ∧ (∀ interval last now : ℚ,
        nextRelease interval last now = now + max 0 (interval - (now - last)))
    ∧ (∀ (interval last : ℚ) (nows : List ℚ), admissible interval last nows →
        List.Chain' (fun a b => a + interval ≤ b)
          (last :: releases interval last nows)
        ∧ (releases interval last nows).length = nows.length) := by
  refine ⟨?_, ?_, ?_, ?_, fun q => rfl, fun i l n => rfl, ?_⟩
  · intro s c h
    simp [throttle, throttleNoop, h, isConfigured]
  · intro s c h
    simp [throttle, throttleNoop, h, isConfigured]
  · intro s c hm hs
    simp [throttle, throttleNoop, hm, hs]
  · intro s c q h hms
    have hnoop : throttleNoop s = false := by
      rcases hms with hm | hs
      · simp [throttleNoop, h, isConfigured, hm]
      · cases hstats : s.stats with
        | none => exact absurd hstats hs
        | some r => cases s.mode <;> simp [throttleNoop, h, isConfigured, hstats]
    simp [throttle, hnoop]
  · intro interval last nows h
    refine ⟨releases_spacing interval last nows h, ?_⟩
    clear h
    induction nows generalizing last with
    | nil => rfl
    | cons now nows ih => simp [releases, ih]

/-- Witness for `ratelimiter_throttle_claim`: an `Infinity` manual limiter is
a no-op, and for `interval = 100` with passes reading the clock at `0`, `100`
and `350`, the release schedule from `lastRequestTime = 0` is spaced by at
least 100 ms. -/
theorem ratelimiter_throttle_claim_witness :
    throttle ⟨.manual, .infRate, none, []⟩ 3 = (⟨.manual, .infRate, none, []⟩, true)
    ∧ List.Chain' (fun a b => a + (100 : ℚ) ≤ b)
        ((0 : ℚ) :: releases 100 0 [0, 100, 350]) :=
  ⟨(ratelimiter_throttle_claim.2.1 ⟨.manual, .infRate, none, []⟩ 3 rfl),
   ((ratelimiter_throttle_claim.2.2.2.2.2.2 100 0 [0, 100, 350])
     (by norm_num [admissible, nextRelease])).1⟩

end RateLimit

namespace RateTester

/-- The `while` body of `testAtRate` over the planned response outcomes of
one test window (`true` = `response.ok()`): results are recorded in order,
and the window ends early once `consecutiveFailures` reaches
`failureThreshold` (the failing result is still recorded). -/
def windowRun (thr : ℕ) : List Bool → ℕ → List Bool
  | [], _ => []
  | r :: rest, consec =>
    if r then r :: windowRun thr rest 0
    else if thr ≤ consec + 1 then [r]
    else r :: windowRun thr rest (consec + 1)

/-- Number of failed probes in a window's recorded results. -/
def failures (l : List Bool) : ℕ := (l.filter fun r => !r).length

/-- `failureRate > 0.1` as the exact comparison `failures / length > 1/10`
(for the empty window JS computes `NaN > 0.1`, which is false, matching
`10 * 0 > 0` being false). -/
def windowExceeds (l : List Bool) : Bool := decide (l.length < 10 * failures l)

/-- The progressive stepping loop of `RateLimitTester`: one window of
simulated responses per tested rate; a window whose recorded failure rate
exceeds 10% sets `foundLimit` and stops without updating
`lastSuccessfulRate`; otherwise the rate is accepted and the loop advances by
`rateIncrement`. -/
def progressive (inc maxR : ℚ) (thr : ℕ) :
    List (List Bool) → ℚ → Option ℚ → Option ℚ
  | [], _, lastGood => lastGood
  | w :: ws, rate, lastGood =>
    if maxR < rate then lastGood
    else
      if windowExceeds (windowRun thr w 0) then lastGood
      else progressive inc maxR thr ws (rate + inc) (some rate)

/-- The recommendation: `lastSuccessfulRate` times a margin of 0.9 when
`lastSuccessfulRate >= maxRate` and 0.8 otherwise; when no rate was ever
accepted, 0.8 times the observed fallback rate. -/
def recommendedRate (maxR : ℚ) (lastGood : Option ℚ) (fallbackRate : ℚ) : ℚ :=
  match lastGood with
  | some r => r * (if maxR ≤ r then (9 : ℚ)/10 else (8 : ℚ)/10)
  | none => fallbackRate * ((8 : ℚ)/10)

/-- A whole progressive calibration run. -/
def runProgressive (initR inc maxR : ℚ) (thr : ℕ) (ws : List (List Bool))
    (fallbackRate : ℚ) : ℚ :=
  recommendedRate maxR (progressive inc maxR thr ws initR none) fallbackRate

/-- The margin rule exactly as claim C8 states it: multiply `lastGoodRate` by
0.9 when the rate ceiling was reached without ever failing, by 0.8
otherwise. -/
def claimRecommendedRate (ceilingReached neverFailed : Bool) (lastGood : ℚ) : ℚ :=
  lastGood * (if ceilingReached && neverFailed then (9 : ℚ)/10 else (8 : ℚ)/10)

/-- Responses for the margin counterexample: rates 30, 60, 90 with ceiling
90; the rate-60 window has one failure in ten probes (10%, not above 10%). -/
def cxWindows : List (List Bool) :=
  [List.replicate 5 true,
   [true, true, true, true, false, true, true, true, true, true],
   List.replicate 5 true]

/-- Responses for the stepping counterexample: the first window is cut short
by three consecutive failures after thirty successes (failure rate 3/33 ≤
10%), followed by a clean window. -/
def cxWindowsB : List (List Bool) :=
  [List.replicate 30 true ++ List.replicate 4 false, List.replicate 5 true]

/-- C8 counterexample: both decision rules differ from the claim.  (i) With
rates 30/60/90 (ceiling 90) and one 10%-failure window, the code accepts
every rate (`lastSuccessfulRate = 90 ≥ maxRate`) and recommends `90 × 0.9 =
81`, while the claim — failures did occur — demands `90 × 0.8 = 72`.
(ii) A window cut short by reaching the consecutive-failure threshold (three
failures after thirty successes, rate 3/33 ≤ 10%) does not stop the
stepping: the run continues and accepts the next rate, whereas the claim says
stepping stops as soon as consecutive failures reach the threshold. -/
theorem ratetester_margin_counterexample :
    runProgressive 30 30 90 3 cxWindows 0 = 81
    ∧ (cxWindows.map fun w => failures w).sum ≠ 0
    ∧ claimRecommendedRate true false 90 = 72
    ∧ (81 : ℚ) ≠ 72
    ∧ windowRun 3 (List.replicate 30 true ++ List.replicate 4 false) 0
        = List.replicate 30 true ++ List.replicate 3 false
    ∧ progressive 30 90 3 cxWindowsB 30 none = some 60 := by
  refine ⟨?_, by decide, ?_, by norm_num, by decide, ?_⟩
  · norm_num [runProgressive, progressive, cxWindows, windowRun, windowExceeds,
      failures, recommendedRate, List.replicate]
  · norm_num [claimRecommendedRate]
  · norm_num [progressive, cxWindowsB, windowRun, windowExceeds, failures,
      List.replicate]

/-- C8 (amended): reaching the consecutive-failure threshold only ends the
current test window early (the failing probe is still recorded); the
stepping itself stops — leaving `lastGoodRate` unchanged — exactly when the
recorded window's failure rate exceeds 10%, and otherwise accepts the rate
and advances by the increment while the rate is within the ceiling.  The
recommended rate is `lastGoodRate × 0.9` when `lastGoodRate` is at least the
rate ceiling and `lastGoodRate × 0.8` otherwise, regardless of whether
failures ever occurred (with fallback `0.8 ×` the observed rate when no rate
was accepted); and identical simulated responses yield the same recommended
rate. -/
theorem ratetester_stepping_claim :
    (∀ (thr consec : ℕ) (rest : List Bool),
        windowRun thr (true :: rest) consec = true :: windowRun thr rest 0)
    ∧ (∀ (thr consec : ℕ) (rest : List Bool), thr ≤ consec + 1 →
        windowRun thr (false :: rest) consec = [false])
    ∧ (∀ (thr consec : ℕ) (rest : List Bool), consec + 1 < thr →
        windowRun thr (false :: rest) consec
          = false :: windowRun thr rest (consec + 1))
    ∧ (∀ (inc maxR : ℚ) (thr : ℕ) (rate : ℚ) (lastGood : Option ℚ)
        (w : List Bool) (ws : List (List Bool)), ¬ maxR < rate →
        (windowExceeds (windowRun thr w 0) = true →
          progressive inc maxR thr (w :: ws) rate lastGood = lastGood)
        ∧ (windowExceeds (windowRun thr w 0) = false →
          progressive inc maxR thr (w :: ws) rate lastGood
            = progressive inc maxR thr ws (rate + inc) (some rate)))
    ∧ (∀ (maxR r fallbackRate : ℚ),
        recommendedRate maxR (some r) fallbackRate
          = r * (if maxR ≤ r then (9 : ℚ)/10 else (8 : ℚ)/10))
    ∧ (∀ (initR inc maxR : ℚ) (thr : ℕ) (fallbackRate : ℚ)
        (ws₁ ws₂ : List (List Bool)), ws₁ = ws₂ →
        runProgressive initR inc maxR thr ws₁ fallbackRate
          = runProgressive initR inc maxR thr ws₂ fallbackRate) := by
  refine ⟨fun thr consec rest => by simp [windowRun], ?_, ?_, ?_,
    fun maxR r f => rfl, fun _ _ _ _ _ _ _ h => by rw [h]⟩
  · intro thr consec rest h
    simp [windowRun, h]
  · intro thr consec rest h
    rw [windowRun, if_neg (by simp), if_neg (by omega)]
  · intro inc maxR thr rate lastGood w ws hle
    constructor
    · intro hx
      rw [progressive, if_neg hle, if_pos hx]
    · intro hx
      rw [progressive, if_neg hle, hx]
      simp

/-- Witness for `ratetester_stepping_claim`: the 10%-failure window of the
margin counterexample is accepted and stepping advances from rate 60. -/
theorem ratetester_stepping_claim_witness :
    progressive 30 90 3
        ([true, true, true, true, false, true, true, true, true, true]
          :: [List.replicate 5 true]) 60 (some 30)
      = progressive 30 90 3 [List.replicate 5 true] (60 + 30) (some 60) :=
  ((ratetester_stepping_claim.2.2.2.1 30 90 3 60 (some 30)
      [true, true, true, true, false, true, true, true, true, true]
      [List.replicate 5 true] (by norm_num)).2 (by decide))

end RateTester

namespace Counter

/-- The radix alphabet `IndexPool = '0123456789abcdef'.split('')`. -/
def IndexPool : List Char := "0123456789abcdef".toList

/-- JS `\d`: an ASCII decimal digit. -/
def isDec (c : Char) : Bool := '0' ≤ c && c ≤ '9'

/-- The capture of `(\d+(?!.*\d).*)$` on a string: the suffix starting at the
first character of the last maximal run of decimal digits (that run plus
everything after it), or no match when the string has no decimal digit.
Returned as `(prefix, captured suffix)`. -/
def capture (s : List Char) : Option (List Char × List Char) :=
  let r := s.reverse
  let k := (r.takeWhile fun c => !(isDec c)).length
  let m := ((r.drop k).takeWhile isDec).length
  if m = 0 then none
  else some (s.take (s.length - (k + m)), s.drop (s.length - (k + m)))

/-- A URL route segment: its string value and its type tag. -/
inductive RouteType where
  | default
  | counter
  deriving Repr, DecidableEq

structure Route where
  value : List Char
  type : RouteType
  deriving Repr, DecidableEq

/-- Value of a digit string read most-significant first in base 16 (the JS
`val = val * base + d` loop); only meaningful when every character is in the
pool. -/
def valHex (l : List Char) : ℕ :=
  l.foldl (fun v c => 16 * v + IndexPool.indexOf c) 0

/-- The hex character of a digit value. -/
def digitChar (d : ℕ) : Char := IndexPool.getD d '0'

/-- The JS rendering loop: `width` lowercase hex digits of `v`, most
significant first (`newIdx = IndexPool[newVal % base] + newIdx`). -/
def toHexDigits : ℕ → ℕ → List Char
  | 0, _ => []
  | w + 1, v => toHexDigits w (v / 16) ++ [digitChar (v % 16)]

/-- `Route.inc(amount)`: no-op unless the segment is `counter`-typed, the
capture regex matches, and every captured character (lowercased) is in the
pool; otherwise replace the captured fixed-width field by its value plus
`amount`, reduced modulo `16 ^ width` (JS computes the remainder and adds the
modulus when negative, i.e. the euclidean `%` against the positive modulus). -/
def routeInc (rt : Route) (amount : ℤ) : Route :=
  if rt.type ≠ RouteType.counter then rt
  else
    match capture rt.value with
    | none => rt
    | some (_, idx) =>
      let idxL := idx.map Char.toLower
      if idxL.all (fun c => decide (c ∈ IndexPool)) then
        let w := idxL.length
        let newVal : ℕ := (((valHex idxL : ℤ) + amount) % ((16 : ℤ) ^ w)).toNat
        { rt with value := rt.value.take (rt.value.length - w) ++ toHexDigits w newVal }
      else rt

/-- C7 counterexample: both the wraparound clause and the round trip fail on
the code.  The all-maximal field `"ff"` contains no decimal digit, so the
capture regex `(\d+(?!.*\d).*)$` does not match and `inc(1)` leaves it
unchanged instead of wrapping to `"00"`; and for the width-1 field `"9"`,
`inc(1)` yields `"a"` (no wraparound occurred), after which `inc(-1)` again
finds no decimal digit and does nothing, so the original digit string is not
restored. -/
theorem counter_roundtrip_counterexample :
    routeInc ⟨['f', 'f'], .counter⟩ 1 = ⟨['f', 'f'], .counter⟩
    ∧ (['f', 'f'] : List Char) ≠ ['0', '0']
    ∧ routeInc ⟨['9'], .counter⟩ 1 = ⟨['a'], .counter⟩
    ∧ routeInc (routeInc ⟨['9'], .counter⟩ 1) (-1) = ⟨['a'], .counter⟩
    ∧ (⟨['a'], .counter⟩ : Route) ≠ ⟨['9'], .counter⟩ := by
  refine ⟨by decide, by decide, by decide, by decide, by decide⟩

end Counter

namespace Counter

theorem pool_toLower : ∀ c ∈ IndexPool, Char.toLower c = c := by decide

theorem map_toLower_pool (l : List Char) (h : ∀ c ∈ l, c ∈ IndexPool) :
    l.map Char.toLower = l := by
  conv_rhs => rw [← List.map_id l]
  exact List.map_congr_left fun c hc => pool_toLower c (h c hc)

theorem indexOf_lt_16 {c : Char} (h : c ∈ IndexPool) : IndexPool.indexOf c < 16 :=
  List.indexOf_lt_length.mpr h

theorem digitChar_mem_aux : ∀ d : Fin 16, digitChar d.val ∈ IndexPool := by decide

theorem digitChar_mem {d : ℕ} (h : d < 16) : digitChar d ∈ IndexPool :=
  digitChar_mem_aux ⟨d, h⟩

theorem digitChar_indexOf : ∀ c ∈ IndexPool, digitChar (IndexPool.indexOf c) = c := by
  decide

theorem indexOf_digitChar_aux : ∀ d : Fin 16, IndexPool.indexOf (digitChar d.val) = d.val := by
  decide

theorem indexOf_digitChar {d : ℕ} (h : d < 16) : IndexPool.indexOf (digitChar d) = d :=
  indexOf_digitChar_aux ⟨d, h⟩

theorem valHex_shift (l : List Char) (acc : ℕ) :
    l.foldl (fun v c => 16 * v + IndexPool.indexOf c) acc
      = acc * 16 ^ l.length + valHex l := by
  induction l generalizing acc with
  | nil => simp [valHex]
  | cons c l ih =>
    have hv : valHex (c :: l) = IndexPool.indexOf c * 16 ^ l.length + valHex l := by
      show List.foldl _ (16 * 0 + IndexPool.indexOf c) l = _
      rw [ih]
      ring_nf
    show List.foldl _ (16 * acc + IndexPool.indexOf c) l = _
    rw [ih, hv, List.length_cons, Nat.pow_succ]
    ring

theorem valHex_concat (l : List Char) (c : Char) :
    valHex (l ++ [c]) = 16 * valHex l + IndexPool.indexOf c := by
  rw [valHex, List.foldl_append]
  rfl

theorem valHex_lt (l : List Char) (h : ∀ c ∈ l, c ∈ IndexPool) :
    valHex l < 16 ^ l.length := by
  induction l using List.reverseRecOn with
  | nil => simp [valHex]
  | append_singleton l c ih =>
    have hc : IndexPool.indexOf c < 16 :=
      indexOf_lt_16 (h c (List.mem_append.mpr (Or.inr (List.mem_singleton_self c))))
    have hl : valHex l < 16 ^ l.length :=
      ih fun x hx => h x (List.mem_append.mpr (Or.inl hx))
    rw [valHex_concat, List.length_append, List.length_singleton, Nat.pow_succ]
    calc 16 * valHex l + IndexPool.indexOf c
        < 16 * valHex l + 16 := Nat.add_lt_add_left hc _
      _ = 16 * (valHex l + 1) := by ring
      _ ≤ 16 * 16 ^ l.length := Nat.mul_le_mul_left 16 hl
      _ = 16 ^ l.length * 16 := Nat.mul_comm _ _

theorem toHexDigits_length (w v : ℕ) : (toHexDigits w v).length = w := by
  induction w generalizing v with
  | zero => rfl
  | succ w ih => simp [toHexDigits, ih]

theorem toHexDigits_mem (w v : ℕ) : ∀ c ∈ toHexDigits w v, c ∈ IndexPool := by
  induction w generalizing v with
  | zero => intro c hc; cases hc
  | succ w ih =>
    intro c hc
    rcases List.mem_append.mp hc with hc | hc
    · exact ih _ c hc
    · rw [List.mem_singleton.mp hc]
      exact digitChar_mem (Nat.mod_lt _ (by norm_num))

theorem valHex_toHexDigits (w : ℕ) : ∀ v : ℕ, v < 16 ^ w →
    valHex (toHexDigits w v) = v := by
  induction w with
  | zero =>
    intro v hv
    interval_cases v
    rfl
  | succ w ih =>
    intro v hv
    have hdiv : v / 16 < 16 ^ w := by
      rw [Nat.div_lt_iff_lt_mul (by norm_num)]
      calc v < 16 ^ (w + 1) := hv
        _ = 16 ^ w * 16 := Nat.pow_succ ..
    rw [toHexDigits, valHex_concat, ih _ hdiv,
      indexOf_digitChar (Nat.mod_lt _ (by norm_num)), Nat.div_add_mod]

theorem toHexDigits_valHex (l : List Char) (h : ∀ c ∈ l, c ∈ IndexPool) :
    toHexDigits l.length (valHex l) = l := by
  induction l using List.reverseRecOn with
  | nil => rfl
  | append_singleton l c ih =>
    have hc : c ∈ IndexPool := h c (List.mem_append.mpr (Or.inr (List.mem_singleton_self c)))
    have hmem : ∀ x ∈ l, x ∈ IndexPool := fun x hx => h x (List.mem_append.mpr (Or.inl hx))
    have hd : IndexPool.indexOf c < 16 := indexOf_lt_16 hc
    rw [List.length_append, List.length_singleton, valHex_concat, toHexDigits]
    have hdiv : (16 * valHex l + IndexPool.indexOf c) / 16 = valHex l := by omega
    have hmod : (16 * valHex l + IndexPool.indexOf c) % 16 = IndexPool.indexOf c := by
      omega
    rw [hdiv, hmod, ih hmem, digitChar_indexOf c hc]

theorem capture_spec (s p i : List Char) (h : capture s = some (p, i)) :
    p ++ i = s ∧ 1 ≤ i.length ∧ p.length = s.length - i.length := by
  simp only [capture] at h
  by_cases hm0 : ((s.reverse.drop
      ((s.reverse.takeWhile fun c => !(isDec c)).length)).takeWhile isDec).length = 0
  · rw [if_pos hm0] at h; cases h
  · rw [if_neg hm0] at h
    injection h with h1
    injection h1 with hp hi
    have hk1 : (s.reverse.takeWhile fun c => !(isDec c)).length ≤ s.length := by
      have h0 : (s.reverse.takeWhile fun c => !(isDec c)).length ≤ s.reverse.length :=
        (List.takeWhile_sublist _).length_le
      rwa [List.length_reverse] at h0
    have hm1 : ((s.reverse.drop
        ((s.reverse.takeWhile fun c => !(isDec c)).length)).takeWhile isDec).length
        ≤ s.length - (s.reverse.takeWhile fun c => !(isDec c)).length := by
      have h0 : ((s.reverse.drop
          ((s.reverse.takeWhile fun c => !(isDec c)).length)).takeWhile isDec).length
          ≤ (s.reverse.drop ((s.reverse.takeWhile fun c => !(isDec c)).length)).length :=
        (List.takeWhile_sublist _).length_le
      rwa [List.length_drop, List.length_reverse] at h0
    subst hp hi
    refine ⟨List.take_append_drop .. , ?_, ?_⟩
    · rw [List.length_drop]
      omega
    · rw [List.length_take, List.length_drop]
      omega

end Counter

namespace Counter

theorem routeInc_spec (rt : Route) (n : ℤ) (p i : List Char)
    (ht : rt.type = .counter) (hc : capture rt.value = some (p, i))
    (hpool : ∀ c ∈ i, c ∈ IndexPool) :
    routeInc rt n = ⟨p ++ toHexDigits i.length
        ((((valHex i : ℤ) + n) % ((16 : ℤ) ^ i.length)).toNat), .counter⟩ := by
  obtain ⟨happ, hlen1, hplen⟩ := capture_spec _ _ _ hc
  have ht' : ¬ rt.type ≠ RouteType.counter := by rw [ht]; exact fun h => h rfl
  have hcond : (i.all fun c => decide (c ∈ IndexPool)) = true := by
    rw [List.all_eq_true]
    intro c hcm
    exact decide_eq_true (hpool c hcm)
  have hval : rt.value.take (rt.value.length - i.length) = p := by
    rw [← happ, List.length_append, Nat.add_sub_cancel, List.take_left]
  unfold routeInc
  rw [if_neg ht', hc]
  simp only [map_toLower_pool i hpool]
  rw [if_pos hcond, hval]
  simp only [Route.mk.injEq, true_and]
  exact ht

theorem routeInc_roundtrip (rt : Route) (n : ℤ) (p i p2 i2 : List Char)
    (ht : rt.type = .counter) (hc : capture rt.value = some (p, i))
    (hpool : ∀ c ∈ i, c ∈ IndexPool)
    (hc2 : capture (routeInc rt n).value = some (p2, i2))
    (hlen : i2.length = i.length) :
    routeInc (routeInc rt n) (-n) = rt := by
  obtain ⟨happ, hlen1, hplen⟩ := capture_spec _ _ _ hc
  have hstep := routeInc_spec rt n p i ht hc hpool
  have hMpos : (0 : ℤ) < (16 : ℤ) ^ i.length := by positivity
  have h0 : 0 ≤ ((valHex i : ℤ) + n) % ((16 : ℤ) ^ i.length) :=
    Int.emod_nonneg _ (ne_of_gt hMpos)
  have hNVlt : ((((valHex i : ℤ) + n) % ((16 : ℤ) ^ i.length)).toNat) < 16 ^ i.length := by
    have h1 : ((valHex i : ℤ) + n) % ((16 : ℤ) ^ i.length) < (16 : ℤ) ^ i.length :=
      Int.emod_lt_of_pos _ hMpos
    have h2 : (((((valHex i : ℤ) + n) % ((16 : ℤ) ^ i.length)).toNat) : ℤ)
        < (16 : ℤ) ^ i.length := by
      rw [Int.toNat_of_nonneg h0]; exact h1
    exact_mod_cast h2
  have hD := toHexDigits_length i.length
    ((((valHex i : ℤ) + n) % ((16 : ℤ) ^ i.length)).toNat)
  have hDpool := toHexDigits_mem i.length
    ((((valHex i : ℤ) + n) % ((16 : ℤ) ^ i.length)).toNat)
  have hc2r := hc2
  rw [hstep] at hc2r
  obtain ⟨happ2, hl2, hpl2⟩ := capture_spec _ _ _ hc2r
  have hplen2 : p2.length = p.length := by
    have hlc := congrArg List.length happ2
    rw [List.length_append, List.length_append, hD, hlen] at hlc
    omega
  obtain ⟨hp2, hi2⟩ := List.append_inj happ2 hplen2
  have hpool2 : ∀ c ∈ i2, c ∈ IndexPool := by
    intro c hcm
    exact hDpool c (hi2 ▸ hcm)
  have hstep2 := routeInc_spec (routeInc rt n) (-n) p2 i2 (by rw [hstep]) hc2 hpool2
  have hvD : (valHex i2 : ℤ) = ((valHex i : ℤ) + n) % ((16 : ℤ) ^ i.length) := by
    rw [hi2, valHex_toHexDigits _ _ hNVlt, Int.toNat_of_nonneg h0]
  have hVlt : (valHex i : ℤ) < (16 : ℤ) ^ i.length := by
    exact_mod_cast valHex_lt i hpool
  have harith : (((valHex i2 : ℤ) + (-n)) % ((16 : ℤ) ^ i2.length)).toNat = valHex i := by
    rw [hlen, hvD]
    have e1 : (((valHex i : ℤ) + n) % ((16 : ℤ) ^ i.length) + (-n))
          % ((16 : ℤ) ^ i.length)
        = (((valHex i : ℤ) + n) + (-n)) % ((16 : ℤ) ^ i.length) := by
      conv_lhs => rw [Int.add_emod]
      conv_rhs => rw [Int.add_emod]
      rw [Int.emod_emod_of_dvd _ dvd_rfl]
    rw [e1, add_neg_cancel_right,
      Int.emod_eq_of_lt (by positivity) hVlt, Int.toNat_natCast]
  rw [hstep2, harith, hlen, toHexDigits_valHex i hpool]
  have hv : p2 ++ i = rt.value := by rw [hp2, happ]
  rw [hv, ← ht]

/-- C7 (amended): `inc` leaves non-`counter` segments unchanged, and also
leaves the value unchanged when the capture regex finds no decimal digit
(`(\d+(?!.*\d).*)$` requires one, so an all-letter field such as `"ff"` is
never touched).  When the regex captures a field of width `w` whose
characters all lie in the radix alphabet, `inc(n)` replaces it by a field of
the same width whose value is the old value plus `n` reduced modulo `16 ^ w`
— carrying into higher digits inside the field and wrapping at the field
width — and `inc(n)` followed by `inc(-n)` restores the original digit
string whenever the capture on the incremented value again has width `w`. -/
theorem counter_inc_claim :
    (∀ (rt : Route) (n : ℤ), rt.type ≠ .counter → routeInc rt n = rt)
    ∧ (∀ (rt : Route) (n : ℤ), capture rt.value = none → routeInc rt n = rt)
    ∧ (∀ (rt : Route) (n : ℤ) (p i : List Char), rt.type = .counter →
        capture rt.value = some (p, i) → (∀ c ∈ i, c ∈ IndexPool) →
        routeInc rt n = ⟨p ++ toHexDigits i.length
            ((((valHex i : ℤ) + n) % ((16 : ℤ) ^ i.length)).toNat), .counter⟩
        ∧ (toHexDigits i.length
            ((((valHex i : ℤ) + n) % ((16 : ℤ) ^ i.length)).toNat)).length = i.length
        ∧ (valHex (toHexDigits i.length
              ((((valHex i : ℤ) + n) % ((16 : ℤ) ^ i.length)).toNat)) : ℤ)
            = ((valHex i : ℤ) + n) % ((16 : ℤ) ^ i.length))
    ∧ (∀ (rt : Route) (n : ℤ) (p i p2 i2 : List Char), rt.type = .counter →
        capture rt.value = some (p, i) → (∀ c ∈ i, c ∈ IndexPool) →
        capture (routeInc rt n).value = some (p2, i2) → i2.length = i.length →
        routeInc (routeInc rt n) (-n) = rt) := by
  refine ⟨?_, ?_, ?_, routeInc_roundtrip⟩
  · intro rt n h
    unfold routeInc
    rw [if_pos h]
  · intro rt n h
    unfold routeInc
    split
    · rfl
    · rw [h]
  · intro rt n p i ht hc hpool
    refine ⟨routeInc_spec rt n p i ht hc hpool, toHexDigits_length .., ?_⟩
    have hMpos : (0 : ℤ) < (16 : ℤ) ^ i.length := by positivity
    have h0 : 0 ≤ ((valHex i : ℤ) + n) % ((16 : ℤ) ^ i.length) :=
      Int.emod_nonneg _ (ne_of_gt hMpos)
    have hNVlt : ((((valHex i : ℤ) + n) % ((16 : ℤ) ^ i.length)).toNat)
        < 16 ^ i.length := by
      have h1 : ((valHex i : ℤ) + n) % ((16 : ℤ) ^ i.length) < (16 : ℤ) ^ i.length :=
        Int.emod_lt_of_pos _ hMpos
      have h2 : (((((valHex i : ℤ) + n) % ((16 : ℤ) ^ i.length)).toNat) : ℤ)
          < (16 : ℤ) ^ i.length := by
        rw [Int.toNat_of_nonneg h0]; exact h1
      exact_mod_cast h2
    rw [valHex_toHexDigits _ _ hNVlt, Int.toNat_of_nonneg h0]

/-- Witness for `counter_inc_claim`: incrementing the counter field `"00f"`
gives `"010"` (carry into the next digit), and decrementing restores
`"00f"`. -/
theorem counter_inc_claim_witness :
    routeInc (routeInc ⟨['0', '0', 'f'], .counter⟩ 1) (-1)
      = ⟨['0', '0', 'f'], .counter⟩ :=
  counter_inc_claim.2.2.2 ⟨['0', '0', 'f'], .counter⟩ 1 [] ['0', '0', 'f'] []
    ['0', '1', '0'] rfl (by decide) (by decide) (by decide) (by decide)

end Counter

namespace Scrape

/-- The capability surface and the simulated environment of one
`scrapeChapter` call. -/
structure ChDriver where
  /-- result of the `getPageCount` probe: `none` when the method is absent or
  it returned null. -/
  pageCount : Option ℕ
  /-- whether `getNextPage` is a function on this connector. -/
  hasNextPage : Bool
  /-- outcome of the `getNextPage()` call made while on page `k`. -/
  nextPageOk : ℕ → Bool
  /-- `getPage()` while on page `k`: the image handle, or `none` (the loops
  treat a missing image as a thrown error and break). -/
  pageImage : ℕ → Option ℕ
  /-- brute force: the image at file index `k` of the page fetched there. -/
  bruteImage : ℕ → Option ℕ
  /-- brute force: `res.ok()` for the fetch of file index `k`. -/
  httpOk : ℕ → Bool
  /-- brute force: file index of the first page's image URL. -/
  firstIdx : ℕ
  /-- the initial navigation to the chapter URL succeeds. -/
  navOk : Bool

/-- The three page-iteration strategies of `scrapeChapter`. -/
inductive Strategy where
  | byCount (n : ℕ)
  | byNextPage
  | brute
  deriving Repr, DecidableEq

/-- Strategy selection: a non-null page count wins, then `getNextPage`
availability, then brute force. -/
def chooseStrategy (d : ChDriver) : Strategy :=
  match d.pageCount with
  | some n => .byCount n
  | none => if d.hasNextPage then .byNextPage else .brute

structure ChapterResult where
  pages : List (ℕ × ℕ)
  error : Option Unit
  deriving Repr, DecidableEq

/-- The `for (pageNum = 1; pageNum <= maxPages; pageNum++)` loop of strategy
(a): scrape the page (a missing image throws and breaks), and between pages
call `getNextPage()` when available, breaking when it reports failure.
`fuel` bounds the number of iterations; the loop itself stops at `maxP`. -/
def runCount (d : ChDriver) (maxP : ℕ) : ℕ → ℕ → List (ℕ × ℕ)
  | 0, _ => []
  | fuel + 1, pageNum =>
    if maxP < pageNum then []
    else
      match d.pageImage pageNum with
      | none => []
      | some img =>
        if pageNum < maxP ∧ d.hasNextPage = true ∧ d.nextPageOk pageNum = false
        then [(pageNum, img)]
        else (pageNum, img) :: runCount d maxP fuel (pageNum + 1)

/-- The `while (true)` loop of strategy (b): scrape the page, then call
`getNextPage()`; stop when it returns false. -/
def runNav (d : ChDriver) : ℕ → ℕ → List (ℕ × ℕ)
  | 0, _ => []
  | fuel + 1, pageNum =>
    match d.pageImage pageNum with
    | none => []
    | some img =>
      if d.nextPageOk pageNum then (pageNum, img) :: runNav d fuel (pageNum + 1)
      else [(pageNum, img)]

/-- The brute-force loop of strategy (c): fetch the URL at the current file
index; a non-OK response throws and ends the chapter; otherwise record the
image and `incFile()`. -/
def runBrute (d : ChDriver) : ℕ → ℕ → List (ℕ × ℕ)
  | 0, _ => []
  | fuel + 1, idx =>
    if d.httpOk idx then
      match d.bruteImage idx with
      | none => []
      | some img => (idx, img) :: runBrute d fuel (idx + 1)
    else []

/-- `scrapeChapter`: navigate, pick the strategy, run its loop.  In-loop
failures are swallowed by the per-page try/catch (the loop just ends), so
`error` is set only when the initial navigation fails. -/
def scrapeChapter (d : ChDriver) (fuel : ℕ) : ChapterResult :=
  if d.navOk = false then ⟨[], some ()⟩
  else
    match chooseStrategy d with
    | .byCount n => ⟨runCount d n fuel 1, none⟩
    | .byNextPage => ⟨runNav d fuel 1, none⟩
    | .brute => ⟨runBrute d fuel d.firstIdx, none⟩

theorem runCount_le (d : ChDriver) (n : ℕ) :
    ∀ (fuel start : ℕ), (runCount d n fuel start).length ≤ n + 1 - start := by
  intro fuel
  induction fuel with
  | zero => intro start; simp [runCount]
  | succ fuel ih =>
    intro start
    rw [runCount]
    by_cases hs : n < start
    · simp [hs]
    · rw [if_neg hs]
      cases him : d.pageImage start with
      | none => simp
      | some img =>
        dsimp only
        by_cases hbr : start < n ∧ d.hasNextPage = true ∧ d.nextPageOk start = false
        · rw [if_pos hbr]
          simp only [List.length_singleton]
          omega
        · rw [if_neg hbr]
          have := ih (start + 1)
          simp only [List.length_cons]
          omega

theorem runCount_exact (d : ChDriver) (n : ℕ) (f : ℕ → ℕ)
    (himg : ∀ k, 1 ≤ k → k ≤ n → d.pageImage k = some (f k))
    (hnav : ∀ k, d.nextPageOk k = true) :
    ∀ (fuel start : ℕ), 1 ≤ start → n + 1 - start ≤ fuel →
      (runCount d n fuel start).length = n + 1 - start := by
  intro fuel
  induction fuel with
  | zero => intro start h1 h2; simp [runCount]; omega
  | succ fuel ih =>
    intro start h1 h2
    rw [runCount]
    by_cases hs : n < start
    · simp [hs]; omega
    · rw [if_neg hs, himg start h1 (by omega)]
      dsimp only
      have hbr : ¬ (start < n ∧ d.hasNextPage = true ∧ d.nextPageOk start = false) := by
        rintro ⟨-, -, hf⟩
        rw [hnav start] at hf
        cases hf
      rw [if_neg hbr]
      simp only [List.length_cons]
      rw [ih (start + 1) (by omega) (by omega)]
      omega

/-- C6: the page-iteration strategy is selected in the priority order
page-count, then `getNextPage`, then brute force; under strategy (b) a
first `getNextPage() === false` yields exactly one page and no error; under
strategy (a) the loop emits at most `maxPages` pages, and exactly `maxPages`
when every page has an image and navigation always succeeds; under strategy
(c) a non-OK HTTP response ends the chapter (no further pages), and an OK
response with an image records the page and increments the file index. -/
theorem scrape_strategy_claim :
    (∀ (d : ChDriver) (n : ℕ), d.pageCount = some n → chooseStrategy d = .byCount n)
    ∧ (∀ d : ChDriver, d.pageCount = none → d.hasNextPage = true →
        chooseStrategy d = .byNextPage)
    ∧ (∀ d : ChDriver, d.pageCount = none → d.hasNextPage = false →
        chooseStrategy d = .brute)
    ∧ (∀ (d : ChDriver) (fuel img : ℕ), d.navOk = true → d.pageCount = none →
        d.hasNextPage = true → d.pageImage 1 = some img → d.nextPageOk 1 = false →
        1 ≤ fuel → scrapeChapter d fuel = ⟨[(1, img)], none⟩)
    ∧ (∀ (d : ChDriver) (n fuel start : ℕ),
        (runCount d n fuel start).length ≤ n + 1 - start)
    ∧ (∀ (d : ChDriver) (n : ℕ) (f : ℕ → ℕ) (fuel : ℕ),
        (∀ k, 1 ≤ k → k ≤ n → d.pageImage k = some (f k)) →
        (∀ k, d.nextPageOk k = true) → n ≤ fuel →
        (runCount d n fuel 1).length = n)
    ∧ (∀ (d : ChDriver) (fuel idx : ℕ), d.httpOk idx = false →
        runBrute d fuel idx = [])
    ∧ (∀ (d : ChDriver) (fuel idx img : ℕ), d.httpOk idx = true →
        d.bruteImage idx = some img →
        runBrute d (fuel + 1) idx = (idx, img) :: runBrute d fuel (idx + 1)) := by
  refine ⟨?_, ?_, ?_, ?_, fun d n fuel start => runCount_le d n fuel start, ?_, ?_, ?_⟩
  · intro d n h
    unfold chooseStrategy
    rw [h]
  · intro d h hn
    unfold chooseStrategy
    rw [h, hn]
    rfl
  · intro d h hn
    unfold chooseStrategy
    rw [h, hn]
    rfl
  · intro d fuel img hnav hpc hnp himg hfalse hfuel
    cases fuel with
    | zero => omega
    | succ fuel =>
      unfold scrapeChapter
      rw [if_neg (by rw [hnav]; exact fun h => by cases h)]
      have hcs : chooseStrategy d = .byNextPage := by
        unfold chooseStrategy
        rw [hpc, hnp]
        rfl
      rw [hcs, runNav, himg, hfalse]
      rfl
  · intro d n f fuel himg hnav hfuel
    have := runCount_exact d n f himg hnav fuel 1 (le_refl 1) (by omega)
    rw [this]
    omega
  · intro d fuel idx h
    cases fuel with
    | zero => rfl
    | succ fuel => rw [runBrute, if_neg (by rw [h]; exact fun hh => by cases hh)]
  · intro d fuel idx img hok himg
    rw [runBrute, if_pos hok, himg]

/-- Witness for `scrape_strategy_claim`: a driver without `getPageCount`
whose `getNextPage` immediately reports no further page produces exactly one
page and no error. -/
theorem scrape_strategy_claim_witness :
    scrapeChapter ⟨none, true, fun _ => false, fun _ => some 7,
        fun _ => none, fun _ => true, 1, true⟩ 5
      = ⟨[(1, 7)], none⟩ :=
  scrape_strategy_claim.2.2.2.1
    ⟨none, true, fun _ => false, fun _ => some 7, fun _ => none, fun _ => true, 1, true⟩
    5 7 rfl rfl rfl rfl rfl (by omega)

end Scrape

namespace Chapters

/-- A volume entry as returned by the mangaworld connector's
`getAllChapterLinks`: the chapters of the volume (ascending) and the 1-based
volume number. -/
structure VolumeEntry (α : Type) where
  chapters : List α
  volume : ℕ
  deriving Repr, DecidableEq

/-- The per-container loop: keep the anchors whose href parsed (`filter(ch =>
ch !== null)`), reverse to ascending, and drop containers with no valid
chapter. -/
def collectVolumes {α : Type} : List (List (Option α)) → List (List α)
  | [] => []
  | ch :: rest =>
    let valid := ch.filterMap id
    if valid.isEmpty then collectVolumes rest
    else valid.reverse :: collectVolumes rest

/-- `volumes.reverse().map((vol, i) => ({...vol, volume: i + 1 }))`. -/
def numberVolumes {α : Type} : ℕ → List (List α) → List (VolumeEntry α)
  | _, [] => []
  | i, chs :: rest => ⟨chs, i + 1⟩ :: numberVolumes (i + 1) rest

/-- `getAllChapterLinks` over the raw DOM structure: one inner list per
`.volume-element` container, in page order (newest volume first, chapters
newest first), `none` marking an anchor whose href failed to parse. -/
def getAllChapterLinks {α : Type} (raw : List (List (Option α))) :
    List (VolumeEntry α) :=
  numberVolumes 0 (collectVolumes raw).reverse

/-- The flattening loop of `ScrapingExecution.process`: for each volume, for
each chapter, push `{url, volume}`. -/
def processFlatten {α : Type} (vols : List (VolumeEntry α)) : List (α × ℕ) :=
  (vols.map fun v => v.chapters.map fun c => (c, v.volume)).flatten

/-- A chapter-scrape task: the flattened work item and its 1-based index
(`chapters.map((chapter, idx) => createChapterTask(…, idx + 1, …))`). -/
structure ChapterTask (α : Type) where
  chapter : α × ℕ
  chapterIndex : ℕ
  deriving Repr, DecidableEq

def mkChapterTasks {α : Type} : ℕ → List (α × ℕ) → List (ChapterTask α)
  | _, [] => []
  | i, ch :: rest => ⟨ch, i + 1⟩ :: mkChapterTasks (i + 1) rest

theorem processFlatten_numberVolumes_fst {α : Type} (vls : List (List α)) :
    ∀ i, (processFlatten (numberVolumes i vls)).map Prod.fst = vls.flatten := by
  induction vls with
  | nil => intro i; rfl
  | cons chs rest ih =>
    intro i
    have h2 := ih (i + 1)
    simp only [processFlatten] at h2 ⊢
    simp only [numberVolumes, List.map_cons, List.flatten_cons, List.map_append, h2]
    have hm : (chs.map (Prod.fst ∘ fun c => (c, i + 1))) = chs := by
      conv_rhs => rw [← List.map_id chs]
      exact List.map_congr_left fun c hc => rfl
    rw [List.map_map, hm]

theorem collectVolumes_flatten {α : Type} (raw : List (List (Option α))) :
    (collectVolumes raw).reverse.flatten
      = ((raw.map (List.filterMap id)).flatten).reverse := by
  induction raw with
  | nil => rfl
  | cons ch rest ih =>
    simp only [collectVolumes, List.map_cons]
    by_cases he : (ch.filterMap id).isEmpty
    · rw [if_pos he]
      have : ch.filterMap id = [] := List.isEmpty_iff.mp he
      simp only [List.flatten, this, List.nil_append]
      exact ih
    · rw [if_neg he]
      simp only [List.reverse_cons, List.flatten_append, List.flatten, ih,
        List.reverse_append]
      simp

theorem numberVolumes_snd_bound {α : Type} (vls : List (List α)) :
    ∀ i, ∀ x ∈ (processFlatten (numberVolumes i vls)).map Prod.snd, i + 1 ≤ x := by
  induction vls with
  | nil => intro i x hx; cases hx
  | cons chs rest ih =>
    intro i x hx
    simp only [numberVolumes, processFlatten, List.map_cons, List.flatten,
      List.map_append, List.map_map, List.mem_append] at hx
    rcases hx with hx | hx
    · simp only [List.mem_map] at hx
      obtain ⟨c, -, hc⟩ := hx
      simp at hc
      omega
    · have := ih (i + 1) x (by simpa [processFlatten] using hx)
      omega

theorem numberVolumes_snd_pairwise {α : Type} (vls : List (List α)) :
    ∀ i, List.Pairwise (· ≤ ·)
      ((processFlatten (numberVolumes i vls)).map Prod.snd) := by
  induction vls with
  | nil => intro i; exact List.Pairwise.nil
  | cons chs rest ih =>
    intro i
    simp only [numberVolumes, processFlatten, List.map_cons, List.flatten,
      List.map_append, List.map_map]
    rw [List.pairwise_append]
    refine ⟨?_, by simpa [processFlatten] using ih (i + 1), ?_⟩
    · rw [List.pairwise_map]
      exact List.pairwise_of_forall fun _ _ => le_refl (i + 1)
    · intro a ha b hb
      have ha' : a = i + 1 := by
        simp only [List.mem_map] at ha
        obtain ⟨c, -, hc⟩ := ha
        simpa using hc.symm
      have hb' := numberVolumes_snd_bound rest (i + 1) b
        (by simpa [processFlatten] using hb)
      omega

theorem mkChapterTasks_length {α : Type} (chs : List (α × ℕ)) :
    ∀ i, (mkChapterTasks i chs).length = chs.length := by
  induction chs with
  | nil => intro i; rfl
  | cons ch rest ih => intro i; simp [mkChapterTasks, ih]

theorem mkChapterTasks_get {α : Type} (chs : List (α × ℕ)) :
    ∀ (i k : ℕ) (h : k < (mkChapterTasks i chs).length),
      (mkChapterTasks i chs).get ⟨k, h⟩
        = ⟨chs.get ⟨k, by rw [← mkChapterTasks_length chs i]; exact h⟩, i + k + 1⟩ := by
  induction chs with
  | nil => intro i k h; cases h
  | cons ch rest ih =>
    intro i k h
    cases k with
    | zero => rfl
    | succ k =>
      have := ih (i + 1) k (by simpa [mkChapterTasks] using h)
      simp only [mkChapterTasks, List.get_cons_succ, this]
      congr 1
      omega

end Chapters

namespace Chapters

/-- C9: the flattened chapter list built by `process` from
`getAllChapterLinks` is the reverse of the DOM listing order (so a DOM listed
newest-volume-first and newest-chapter-first yields volumes ascending and
chapters ascending within each volume — conjunct five makes that explicit
for any strictly descending key); the attached volume numbers are
nondecreasing along the flattened list; and exactly one task is built per
flattened entry, the task at position `k` carrying that entry and chapter
index `k + 1`. -/
theorem chapters_ordering_claim {α : Type} :
    (∀ raw : List (List (Option α)),
        (processFlatten (getAllChapterLinks raw)).map Prod.fst
          = ((raw.map (List.filterMap id)).flatten).reverse)
    ∧ (∀ raw : List (List (Option α)),
        List.Pairwise (· ≤ ·)
          ((processFlatten (getAllChapterLinks raw)).map Prod.snd))
    ∧ (∀ chs : List (α × ℕ), (mkChapterTasks 0 chs).length = chs.length)
    ∧ (∀ (chs : List (α × ℕ)) (k : ℕ) (h : k < (mkChapterTasks 0 chs).length)
        (h2 : k < chs.length),
        (mkChapterTasks 0 chs).get ⟨k, h⟩ = ⟨chs.get ⟨k, h2⟩, k + 1⟩)
    ∧ (∀ (raw : List (List (Option α))) (key : α → ℕ),
        List.Pairwise (fun a b => key b < key a)
          ((raw.map (List.filterMap id)).flatten) →
        List.Pairwise (fun a b => key a < key b)
          ((processFlatten (getAllChapterLinks raw)).map Prod.fst)) := by
  have hmain : ∀ raw : List (List (Option α)),
      (processFlatten (getAllChapterLinks raw)).map Prod.fst
        = ((raw.map (List.filterMap id)).flatten).reverse := by
    intro raw
    unfold getAllChapterLinks
    rw [processFlatten_numberVolumes_fst, collectVolumes_flatten]
  refine ⟨hmain, fun raw => numberVolumes_snd_pairwise _ 0,
    fun chs => mkChapterTasks_length chs 0, ?_, ?_⟩
  · intro chs k h h2
    rw [mkChapterTasks_get chs 0 k h]
    simp
  · intro raw key hdesc
    rw [hmain raw]
    rw [List.pairwise_reverse]
    exact hdesc

/-- Witness for `chapters_ordering_claim`: a DOM with two volume containers
(newest first) whose chapters are listed newest first, one broken anchor
included, flattens to a strictly ascending chapter list. -/
theorem chapters_ordering_claim_witness :
    List.Pairwise (fun a b => a < b)
      ((processFlatten (getAllChapterLinks
          [[some 3, some 2], [some 1, none, some 0]])).map Prod.fst) :=
  (@chapters_ordering_claim ℕ).2.2.2.2
    [[some 3, some 2], [some 1, none, some 0]] id (by decide)

end Chapters

namespace Pool

/-- The scan loop of `getAvailableDriver`: positions `(idx + i) % n` for
`i = 0 … n − 1` (`r` attempts remaining); on finding a non-busy driver it
advances `idx` just past it and returns the pair `(driver, new idx)`. -/
def scanFrom (n : ℕ) (busy : List ℕ) (idx : ℕ) : ℕ → ℕ → Option (ℕ × ℕ)
  | _, 0 => none
  | i, r + 1 =>
    if (idx + i) % n ∈ busy then scanFrom n busy idx (i + 1) r
    else some ((idx + i) % n, (idx + i + 1) % n)

/-- `getAvailableDriver`: `null` on an empty pool, otherwise scan all `n`
positions round-robin starting at `idx`. -/
def getAvailableDriver (n : ℕ) (busy : List ℕ) (idx : ℕ) : Option (ℕ × ℕ) :=
  if n = 0 then none else scanFrom n busy idx 0 n

/-- Phase of one `exec` call. -/
inductive PPhase where
  /-- in the wait loop, `elapsed` ms since its `startTime`. -/
  | trying (elapsed : ℕ)
  /-- holding driver `d`, running `fn`. -/
  | running (d : ℕ)
  /-- `fn` settled (returned or threw); the `finally` ran. -/
  | done
  /-- threw the 60-second timeout error. -/
  | timedOut
  deriving Repr, DecidableEq

/-- Pool state: the busy set (as a duplicate-free list), the round-robin
index, and each caller's phase. -/
structure PState where
  busy : List ℕ
  idx : ℕ
  phase : ℕ → PPhase

def poolInit : PState := ⟨[], 0, fun _ => .trying 0⟩

/-- Atomic steps of caller `t` against a pool of `n` drivers.  Selection and
`busy.add` happen in one synchronous segment (no `await` between them in the
JavaScript), and the `finally` removes the driver whatever `fn`'s outcome
`ok` was. -/
inductive PStep (n : ℕ) (t : ℕ) : PState → PState → Prop
  | acquire (s : PState) (e d idx' : ℕ)
      (hp : s.phase t = .trying e)
      (hg : getAvailableDriver n s.busy s.idx = some (d, idx')) :
      PStep n t s ⟨s.busy ++ [d], idx', Function.update s.phase t (.running d)⟩
  | retry (s : PState) (e : ℕ)
      (hp : s.phase t = .trying e)
      (hg : getAvailableDriver n s.busy s.idx = none)
      (he : e ≤ 60000) :
      PStep n t s ⟨s.busy, s.idx, Function.update s.phase t (.trying (e + 100))⟩
  | timeout (s : PState) (e : ℕ)
      (hp : s.phase t = .trying e)
      (hg : getAvailableDriver n s.busy s.idx = none)
      (he : 60000 < e) :
      PStep n t s ⟨s.busy, s.idx, Function.update s.phase t .timedOut⟩
  | finish (s : PState) (d : ℕ) (ok : Bool)
      (hp : s.phase t = .running d) :
      PStep n t s ⟨s.busy.erase d, s.idx, Function.update s.phase t .done⟩

inductive PReach (n : ℕ) : PState → Prop
  | init : PReach n poolInit
  | step {s s' : PState} (t : ℕ) : PReach n s → PStep n t s s' → PReach n s'

theorem scanFrom_mem (n : ℕ) (busy : List ℕ) (idx : ℕ) :
    ∀ (r i d idx' : ℕ), scanFrom n busy idx i r = some (d, idx') →
      d ∉ busy ∧ (0 < n → d < n) := by
  intro r
  induction r with
  | zero => intro i d idx' h; cases h
  | succ r ih =>
    intro i d idx' h
    rw [scanFrom] at h
    by_cases hb : (idx + i) % n ∈ busy
    · rw [if_pos hb] at h
      exact ih (i + 1) d idx' h
    · rw [if_neg hb] at h
      injection h with h1
      injection h1 with hd hidx
      subst hd
      exact ⟨hb, fun hn => Nat.mod_lt _ hn⟩

theorem getAvailableDriver_spec (n : ℕ) (busy : List ℕ) (idx d idx' : ℕ)
    (h : getAvailableDriver n busy idx = some (d, idx')) :
    d ∉ busy ∧ d < n := by
  unfold getAvailableDriver at h
  by_cases hn : n = 0
  · rw [if_pos hn] at h; cases h
  · rw [if_neg hn] at h
    have := scanFrom_mem n busy idx n 0 d idx' h
    exact ⟨this.1, this.2 (Nat.pos_of_ne_zero hn)⟩

theorem scanFrom_all_busy (n : ℕ) (busy : List ℕ) (idx : ℕ)
    (hall : ∀ p, p < n → p ∈ busy) :
    ∀ (r i : ℕ), 0 < n → scanFrom n busy idx i r = none := by
  intro r
  induction r with
  | zero => intro i _; rfl
  | succ r ih =>
    intro i hn
    rw [scanFrom, if_pos (hall _ (Nat.mod_lt _ hn))]
    exact ih (i + 1) hn

theorem getAvailableDriver_all_busy (n : ℕ) (busy : List ℕ) (idx : ℕ)
    (hall : ∀ p, p < n → p ∈ busy) :
    getAvailableDriver n busy idx = none := by
  unfold getAvailableDriver
  by_cases hn : n = 0
  · rw [if_pos hn]
  · rw [if_neg hn]
    exact scanFrom_all_busy n busy idx hall n 0 (Nat.pos_of_ne_zero hn)

/-- Inductive invariant: at most one caller runs on a given driver, running
callers' drivers are in the busy set, and the busy set has no duplicates. -/
def PoolInv (s : PState) : Prop :=
  (∀ t₁ t₂ d, s.phase t₁ = .running d → s.phase t₂ = .running d → t₁ = t₂)
  ∧ (∀ t d, s.phase t = .running d → d ∈ s.busy)
  ∧ s.busy.Nodup

theorem poolInv_init : PoolInv poolInit := by
  refine ⟨fun t₁ t₂ d h₁ h₂ => ?_, fun t d h => ?_, List.nodup_nil⟩
  · cases h₁
  · cases h

theorem poolInv_step {n t : ℕ} {s s' : PState}
    (hstep : PStep n t s s') (hinv : PoolInv s) : PoolInv s' := by
  obtain ⟨inv1, inv2, inv3⟩ := hinv
  cases hstep with
  | acquire e d idx' hp hg =>
    obtain ⟨hdb, hdn⟩ := getAvailableDriver_spec n s.busy s.idx d idx' hg
    refine ⟨fun t₁ t₂ d' h₁ h₂ => ?_, fun u d' hu => ?_, ?_⟩
    · simp only [Function.update_apply] at h₁ h₂
      split_ifs at h₁ h₂ with e₁ e₂ e₂
      · exact e₁.trans e₂.symm
      · injection h₁ with hd'
        subst hd'
        exact absurd (inv2 t₂ d h₂) hdb
      · injection h₂ with hd'
        subst hd'
        exact absurd (inv2 t₁ d h₁) hdb
      · exact inv1 t₁ t₂ d' h₁ h₂
    · simp only [Function.update_apply] at hu
      split_ifs at hu with e₁
      · injection hu with hd'
        subst hd'
        exact List.mem_append.mpr (Or.inr (List.mem_singleton_self d))
      · exact List.mem_append.mpr (Or.inl (inv2 u d' hu))
    · exact List.Nodup.append inv3 (List.nodup_singleton d)
        (fun x hx hx' => hdb ((List.mem_singleton.mp hx') ▸ hx))
  | retry e hp hg he =>
    refine ⟨fun t₁ t₂ d' h₁ h₂ => ?_, fun u d' hu => ?_, inv3⟩
    · simp only [Function.update_apply] at h₁ h₂
      by_cases e₁ : t₁ = t
      · rw [if_pos e₁] at h₁; cases h₁
      · rw [if_neg e₁] at h₁
        by_cases e₂ : t₂ = t
        · rw [if_pos e₂] at h₂; cases h₂
        · rw [if_neg e₂] at h₂
          exact inv1 t₁ t₂ d' h₁ h₂
    · simp only [Function.update_apply] at hu
      by_cases e₁ : u = t
      · rw [if_pos e₁] at hu; cases hu
      · rw [if_neg e₁] at hu
        exact inv2 u d' hu
  | timeout e hp hg he =>
    refine ⟨fun t₁ t₂ d' h₁ h₂ => ?_, fun u d' hu => ?_, inv3⟩
    · simp only [Function.update_apply] at h₁ h₂
      by_cases e₁ : t₁ = t
      · rw [if_pos e₁] at h₁; cases h₁
      · rw [if_neg e₁] at h₁
        by_cases e₂ : t₂ = t
        · rw [if_pos e₂] at h₂; cases h₂
        · rw [if_neg e₂] at h₂
          exact inv1 t₁ t₂ d' h₁ h₂
    · simp only [Function.update_apply] at hu
      by_cases e₁ : u = t
      · rw [if_pos e₁] at hu; cases hu
      · rw [if_neg e₁] at hu
        exact inv2 u d' hu
  | finish d ok hp =>
    refine ⟨fun t₁ t₂ d' h₁ h₂ => ?_, fun u d' hu => ?_, inv3.erase d⟩
    · simp only [Function.update_apply] at h₁ h₂
      by_cases e₁ : t₁ = t
      · rw [if_pos e₁] at h₁; cases h₁
      · rw [if_neg e₁] at h₁
        by_cases e₂ : t₂ = t
        · rw [if_pos e₂] at h₂; cases h₂
        · rw [if_neg e₂] at h₂
          exact inv1 t₁ t₂ d' h₁ h₂
    · simp only [Function.update_apply] at hu
      by_cases e₁ : u = t
      · rw [if_pos e₁] at hu; cases hu
      · rw [if_neg e₁] at hu
        have hmem := inv2 u d' hu
        have hne : d' ≠ d := fun hdd => e₁ (inv1 u t d' hu (by rw [hdd]; exact hp))
        exact (List.Nodup.mem_erase_iff inv3).mpr ⟨hne, hmem⟩

theorem poolInv_reach {n : ℕ} {s : PState} (h : PReach n s) : PoolInv s := by
  induction h with
  | init => exact poolInv_init
  | step t _ hstep ih => exact poolInv_step hstep ih

end Pool

namespace Pool

/-- C10: `DriverPool.exec` selects a driver outside the busy set (the
selection and the `busy.add` are one synchronous segment), marks it busy
before `fn` runs, and the `finally` removes it when `fn` settles whatever the
outcome — on every reachable state no driver is run by two `exec` calls at
once, and a callback failure cannot leave its driver marked busy.  When all
`n` drivers are busy, `getAvailableDriver` returns null, and a waiter whose
elapsed time exceeds 60 000 ms can only step to the timeout error rather
than keep waiting. -/
theorem driverpool_exec_claim (n : ℕ) :
    (∀ s : PState, PReach n s →
        ∀ t₁ t₂ d, s.phase t₁ = .running d → s.phase t₂ = .running d → t₁ = t₂)
    ∧ (∀ (busy : List ℕ) (idx d idx' : ℕ),
        getAvailableDriver n busy idx = some (d, idx') → d ∉ busy ∧ d < n)
    ∧ (∀ (s s' : PState) (t d : ℕ), PStep n t s s' → s'.phase t = .running d →
        d ∉ s.busy ∧ d ∈ s'.busy)
    ∧ (∀ (s s' : PState) (t d : ℕ) , PReach n s → PStep n t s s' →
        s.phase t = .running d →
        s'.phase t = .done ∧ d ∉ s'.busy ∧ s'.busy = s.busy.erase d)
    ∧ (∀ (busy : List ℕ) (idx : ℕ), (∀ p, p < n → p ∈ busy) →
        getAvailableDriver n busy idx = none)
    ∧ (∀ (s s' : PState) (t e : ℕ), PStep n t s s' → s.phase t = .trying e →
        (∀ p, p < n → p ∈ s.busy) → 60000 < e → s'.phase t = .timedOut) := by
  refine ⟨?_, fun busy idx d idx' h => getAvailableDriver_spec n busy idx d idx' h,
    ?_, ?_, fun busy idx h => getAvailableDriver_all_busy n busy idx h, ?_⟩
  · intro s hr t₁ t₂ d h₁ h₂
    exact (poolInv_reach hr).1 t₁ t₂ d h₁ h₂
  · intro s s' t d hstep hrun
    cases hstep with
    | acquire e d0 idx' hp hg =>
      have hph : Function.update s.phase t (PPhase.running d0) t = .running d0 :=
        Function.update_same ..
      rw [show (⟨s.busy ++ [d0], idx', Function.update s.phase t (.running d0)⟩ :
          PState).phase t = .running d0 from hph] at hrun
      injection hrun with hd
      subst hd
      obtain ⟨hdb, -⟩ := getAvailableDriver_spec n s.busy s.idx d0 idx' hg
      exact ⟨hdb, List.mem_append.mpr (Or.inr (List.mem_singleton_self d0))⟩
    | retry e hp hg he =>
      rw [show (⟨s.busy, s.idx, Function.update s.phase t (.trying (e + 100))⟩ :
          PState).phase t = .trying (e + 100) from Function.update_same ..] at hrun
      cases hrun
    | timeout e hp hg he =>
      rw [show (⟨s.busy, s.idx, Function.update s.phase t .timedOut⟩ :
          PState).phase t = .timedOut from Function.update_same ..] at hrun
      cases hrun
    | finish d0 ok hp =>
      rw [show (⟨s.busy.erase d0, s.idx, Function.update s.phase t .done⟩ :
          PState).phase t = .done from Function.update_same ..] at hrun
      cases hrun
  · intro s s' t d hr hstep hp0
    have hinv := poolInv_reach hr
    cases hstep with
    | acquire e d0 idx' hp hg => rw [hp0] at hp; cases hp
    | retry e hp hg he => rw [hp0] at hp; cases hp
    | timeout e hp hg he => rw [hp0] at hp; cases hp
    | finish d0 ok hp =>
      rw [hp0] at hp
      injection hp with hd
      subst hd
      refine ⟨Function.update_same .., ?_, rfl⟩
      exact hinv.2.2.not_mem_erase
  · intro s s' t e hstep hp0 hall he
    cases hstep with
    | acquire e0 d0 idx' hp hg =>
      rw [getAvailableDriver_all_busy n s.busy s.idx hall] at hg
      cases hg
    | retry e0 hp hg he0 =>
      rw [hp0] at hp
      injection hp with he1
      omega
    | timeout e0 hp hg he0 => exact Function.update_same ..
    | finish d0 ok hp => rw [hp0] at hp; cases hp

/-- The pool state after caller 0 acquires the only driver of a 1-driver
pool. -/
def pw1 : PState :=
  ⟨poolInit.busy ++ [0], 0, Function.update poolInit.phase 0 (.running 0)⟩

theorem pwStep1 : PStep 1 0 poolInit pw1 := PStep.acquire poolInit 0 0 0 rfl rfl

/-- Witness for `driverpool_exec_claim`: in a 1-driver pool the selected
driver is not busy, and after the concrete acquire step it is marked busy and
run by caller 0. -/
theorem driverpool_exec_claim_witness :
    (0 ∉ ([] : List ℕ) ∧ 0 < 1) ∧ 0 ∈ pw1.busy :=
  ⟨(driverpool_exec_claim 1).2.1 [] 0 0 0 rfl,
   ((driverpool_exec_claim 1).2.2.1 poolInit pw1 0 0 pwStep1 rfl).2⟩

end Pool
